import Mathlib

/-!
Verification of the replay engine of `rscexplorer`
(`src/client/runtime/steppable-stream.js`): the `SteppableStream`
controlled replay stream and the `Timeline` that composes several such
streams under a single global cursor.

The JavaScript classes are shallowly embedded as pure Lean functions on
explicit state records.  Text is modelled as `List Char`; the mutable
`this.rows` / `this.releasedCount` / `this.cursor` fields become record
fields threaded through each operation.  Ghost fields record observable
events that the JavaScript performs through its environment:

* `output`     - the rows enqueued into the current `ReadableStream`;
* `closeCount` - how many times `controller.close()` was called on the
                 current output stream;
* `generation` - how many times `_createStream` ran (a fresh
                 `ReadableStream`/flight promise pair per increment);
* `notifyCount` (on `Timeline`) - how many times `notify()` fired;
* `Snapshot.id` - an allocation counter modelling object identity of the
                 cached snapshot.
-/

namespace RSCExplorer

/-- One buffered row of the Flight transcript (a line of text). -/
abbrev Row := List Char

/-- State of a `SteppableStream` from `steppable-stream.js`. -/
structure SteppableStream where
  rows : List Row
  releasedCount : Nat
  buffered : Bool
  closed : Bool
  /-- Ghost: rows enqueued (in order) into the current output stream. -/
  output : List Row
  /-- Ghost: number of `controller.close()` calls on the current output stream. -/
  closeCount : Nat
  /-- Ghost: number of `_createStream` calls so far (identity of the output stream). -/
  generation : Nat
deriving DecidableEq, Repr

instance : Inhabited SteppableStream :=
  ⟨{ rows := [], releasedCount := 0, buffered := false, closed := false,
     output := [], closeCount := 0, generation := 0 }⟩

namespace SteppableStream

/-- The `_createStream` method: `releasedCount = 0`, `closed = false`, and a
fresh output stream / flight promise (modelled by emptying `output`,
zeroing `closeCount` and bumping `generation`). -/
def createStream (s : SteppableStream) : SteppableStream :=
  { s with releasedCount := 0, closed := false,
           output := [], closeCount := 0, generation := s.generation + 1 }

/-- The constructor `new SteppableStream` before any buffering: empty rows,
not buffered, then `_createStream()`. -/
def new : SteppableStream :=
  createStream
    { rows := [], releasedCount := 0, buffered := false, closed := false,
      output := [], closeCount := 0, generation := 0 }

/-- The `while` loop inside `release`: while `releasedCount < count` and
`releasedCount < rows.length`, enqueue `rows[releasedCount]` and increment
`releasedCount`.  Returns the new `releasedCount` and output.  Each
iteration raises `releasedCount` by one while it stays below `count`, so
fuel `count - releasedCount` makes the fueled loop coincide with the
JavaScript `while` loop. -/
def releaseLoop : Nat → List Row → Nat → Nat → List Row → Nat × List Row
  | 0, _, releasedCount, _, output => (releasedCount, output)
  | fuel + 1, rows, releasedCount, count, output =>
    if releasedCount < count ∧ releasedCount < rows.length then
      releaseLoop fuel rows (releasedCount + 1) count
        (output ++ [rows.getD releasedCount []])
    else
      (releasedCount, output)

/-- The `release(count)` closure created in `_createStream`. -/
def release (s : SteppableStream) (count : Nat) : SteppableStream :=
  let r := releaseLoop (count - s.releasedCount) s.rows s.releasedCount count s.output
  let s' := { s with releasedCount := r.1, output := r.2 }
  if s'.rows.length ≤ s'.releasedCount ∧ s'.buffered = true ∧ s'.closed = false then
    { s' with closed := true, closeCount := s'.closeCount + 1 }
  else
    s'

/-- The `reset` method: just `_createStream()` again. -/
def reset (s : SteppableStream) : SteppableStream :=
  s.createStream

/-- JavaScript `String.prototype.split('\n')` on character lists:
prepend a character to the first piece of a split. -/
def consHead (c : Char) : List Row → List Row
  | [] => [[c]]
  | r :: rs => (c :: r) :: rs

/-- JavaScript `content.split('\n')` on character lists. -/
def splitNL : List Char → List Row
  | [] => [[]]
  | c :: cs => if c = '\n' then [] :: splitNL cs else consHead c (splitNL cs)

/-- JavaScript `line.trim()` is falsy exactly when every character is
whitespace. -/
def isBlank (l : List Char) : Bool := l.all (·.isWhitespace)

/-- One iteration of the `while` loop in `buffer`: append the decoded chunk
to the pending tail, split on `'\n'`, pop the last piece back into the
pending tail, and push every non-blank completed line. -/
def bufferStep : List Row × List Char → List Char → List Row × List Char
  | (rows, pend), chunk =>
    let lines := splitNL (pend ++ chunk)
    (rows ++ lines.dropLast.filter (fun l => !(isBlank l)), lines.getLastD [])

/-- An inbound stream: the text chunks it delivers, then either a normal
end (`error = none`) or an error after the last chunk. -/
structure InboundStream where
  chunks : List (List Char)
  error : Option (List Char)
deriving DecidableEq, Repr

/-- The async `buffer(stream)` method.  Chunks are drained through
`bufferStep`; on normal end the trailing pending text is flushed as a final
row if non-blank; in both cases the `finally` block sets `buffered = true`.
The second component is the settling of the returned promise: `some e`
means it rejected with the inbound stream's error `e`. -/
def buffer (s : SteppableStream) (src : InboundStream) :
    SteppableStream × Option (List Char) :=
  let r := src.chunks.foldl bufferStep (s.rows, [])
  match src.error with
  | none =>
    let rows := if !(isBlank r.2) then r.1 ++ [r.2] else r.1
    ({ s with rows := rows, buffered := true }, none)
  | some e =>
    ({ s with rows := r.1, buffered := true }, some e)

end SteppableStream

/-- The tag part of a timeline entry: `{ type: 'render' }` or
`{ type: 'action', name, args }`. -/
inductive EntryKind where
  | render : EntryKind
  | action : (name : String) → (args : List String) → EntryKind
deriving DecidableEq, Repr

/-- One timeline entry, owning one `SteppableStream`. -/
structure Entry where
  type : EntryKind
  stream : SteppableStream
deriving DecidableEq, Repr

instance : Inhabited Entry := ⟨{ type := EntryKind.render, stream := default }⟩

/-- The cached snapshot returned by `Timeline.getSnapshot`.  The `id` field
is a ghost allocation counter modelling JavaScript object identity. -/
structure Snapshot where
  entries : List Entry
  cursor : Nat
  totalChunks : Nat
  isAtStart : Bool
  isAtEnd : Bool
  id : Nat
deriving DecidableEq, Repr

/-- State of a `Timeline`.  `snapCounter` allocates snapshot identities and
`notifyCount` counts `notify()` calls (the listener set itself carries no
state relevant to the claims). -/
structure Timeline where
  entries : List Entry
  cursor : Nat
  snapshot : Option Snapshot
  snapCounter : Nat
  notifyCount : Nat
deriving DecidableEq, Repr

namespace Timeline

/-- The `Timeline` constructor: empty entries, cursor 0, no cached snapshot. -/
def init : Timeline :=
  { entries := [], cursor := 0, snapshot := none, snapCounter := 0, notifyCount := 0 }

/-- The `notify` method: invalidate the snapshot cache and call every
listener (counted by `notifyCount`). -/
def notify (t : Timeline) : Timeline :=
  { t with snapshot := none, notifyCount := t.notifyCount + 1 }

/-- The `getChunkCount(entry)` method: `entry.stream?.rows?.length || 0`. -/
def getChunkCount (e : Entry) : Nat := e.stream.rows.length

/-- The `getTotalChunks` method: `entries.reduce((sum, e) => sum + count e, 0)`. -/
def getTotalChunks (t : Timeline) : Nat :=
  t.entries.foldl (fun sum e => sum + getChunkCount e) 0

/-- The loop of `getPosition`, walking the entries with the running index. -/
def getPositionAux : List Entry → Nat → Nat → Option (Nat × Nat)
  | [], _, _ => none
  | e :: rest, remaining, i =>
    if remaining < getChunkCount e then some (i, remaining)
    else getPositionAux rest (remaining - getChunkCount e) (i + 1)

/-- The `getPosition(globalChunk)` method: map a global row index to
`(entryIndex, localChunk)`, or `none` past the end. -/
def getPosition (t : Timeline) (globalChunk : Nat) : Option (Nat × Nat) :=
  getPositionAux t.entries globalChunk 0

/-- The `getEntryStart(entryIndex)` method: the sum of the chunk counts of
all earlier entries. -/
def getEntryStart (t : Timeline) (entryIndex : Nat) : Nat :=
  ((t.entries.take entryIndex).map getChunkCount).sum

/-- The `canDeleteEntry(entryIndex)` method. -/
def canDeleteEntry (t : Timeline) (entryIndex : Nat) : Bool :=
  if entryIndex < t.entries.length then
    decide (t.cursor ≤ t.getEntryStart entryIndex)
  else
    false

/-- The `getSnapshot` method: return the cached snapshot if present,
otherwise build one, cache it, and return it.  The second component is the
timeline after the (cache-filling) read. -/
def getSnapshot (t : Timeline) : Snapshot × Timeline :=
  match t.snapshot with
  | some s => (s, t)
  | none =>
    let totalChunks := t.getTotalChunks
    let s : Snapshot :=
      { entries := t.entries, cursor := t.cursor, totalChunks := totalChunks,
        isAtStart := t.cursor == 0, isAtEnd := decide (totalChunks ≤ t.cursor),
        id := t.snapCounter }
    (s, { t with snapshot := some s, snapCounter := t.snapCounter + 1 })

/-- The `setRender(stream)` method. -/
def setRender (t : Timeline) (stream : SteppableStream) : Timeline :=
  ({ t with entries := [{ type := EntryKind.render, stream := stream }],
            cursor := 0 }).notify

/-- The `addAction(name, args, stream)` method. -/
def addAction (t : Timeline) (name : String) (args : List String)
    (stream : SteppableStream) : Timeline :=
  ({ t with entries :=
      t.entries ++ [({ type := EntryKind.action name args, stream := stream } : Entry)] }).notify

/-- The `deleteEntry(entryIndex)` method.  The JavaScript
`entries.filter((_, i) => i !== entryIndex)` equals
`take entryIndex ++ drop (entryIndex + 1)` for every index. -/
def deleteEntry (t : Timeline) (entryIndex : Nat) : Timeline × Bool :=
  if t.canDeleteEntry entryIndex then
    (({ t with entries :=
        t.entries.take entryIndex ++ t.entries.drop (entryIndex + 1) }).notify, true)
  else
    (t, false)

/-- Replace the stream of the entry at index `i` (the effect of the
JavaScript aliasing `const entry = this.entries[pos.entryIndex]` followed by
a mutation of `entry.stream`). -/
def modifyIdx : List Entry → Nat → (SteppableStream → SteppableStream) → List Entry
  | [], _, _ => []
  | e :: rest, 0, f => ({ e with stream := f e.stream } : Entry) :: rest
  | e :: rest, n + 1, f => e :: modifyIdx rest n f

/-- The `_releaseNext` internal helper: resolve the entry under the cursor,
advance the cursor by one and release that entry's next row.  Returns
`false` (and leaves the state alone) when the cursor maps to no position. -/
def releaseNext (t : Timeline) : Timeline × Bool :=
  match t.getPosition t.cursor with
  | none => (t, false)
  | some (entryIndex, localChunk) =>
    ({ t with cursor := t.cursor + 1,
              entries := modifyIdx t.entries entryIndex
                (fun s => s.release (localChunk + 1)) }, true)

/-- The `stepForward` method. -/
def stepForward (t : Timeline) : Timeline :=
  let total := t.getTotalChunks
  if total ≤ t.cursor then t
  else (t.releaseNext).1.notify

/-- The replay loop of `seekTo`:
`while (cursor < target) { if (!_releaseNext()) break; }`.
Each successful `_releaseNext` advances the cursor by exactly one, so
`target - cursor` iterations of fuel make the fueled loop coincide with
the JavaScript `while` loop. -/
def replayLoop : Nat → Timeline → Nat → Timeline
  | 0, t, _ => t
  | fuel + 1, t, target =>
    if t.cursor < target then
      match t.releaseNext with
      | (t', true) => replayLoop fuel t' target
      | (t', false) => t'
    else t

/-- The entry-counting loop of the backward branch of `seekTo`: walk the
entries accumulating start offsets and stop at the first entry that starts
strictly after the target. -/
def keepLoop : List Entry → Nat → Nat → Nat
  | [], _, _ => 0
  | e :: rest, target, entryStart =>
    if target < entryStart then 0
    else 1 + keepLoop rest target (entryStart + getChunkCount e)

/-- The `seekTo(targetCursor)` method.  Forward seeks replay single-row
releases up to the clamped target; backward seeks truncate the entry list
to the entries starting at or before the target, reset every remaining
stream, zero the cursor and replay forward. -/
def seekTo (t : Timeline) (targetCursor : Nat) : Timeline :=
  let total := t.getTotalChunks
  let clampedTarget := min targetCursor total
  if clampedTarget = t.cursor then t
  else if t.cursor < clampedTarget then
    (replayLoop (clampedTarget - t.cursor) t clampedTarget).notify
  else
    let entriesToKeep := keepLoop t.entries clampedTarget 0
    let t1 := { t with entries := t.entries.take entriesToKeep }
    let resetEntry : Entry → Entry := fun e => { e with stream := e.stream.reset }
    let t2 := { t1 with entries := t1.entries.map resetEntry }
    let t3 := { t2 with cursor := 0 }
    (replayLoop clampedTarget t3 clampedTarget).notify

/-- The `stepBackward` method. -/
def stepBackward (t : Timeline) : Timeline :=
  if t.cursor = 0 then t else t.seekTo (t.cursor - 1)

/-- The stepping loop of `skipToEntryEnd`:
`while (cursor < entryEnd) stepForward()`.  As in `replayLoop`, fuel
`entryEnd - cursor` makes the fueled loop coincide with the `while` loop
because every executed `stepForward` advances the cursor by one. -/
def stepLoop : Nat → Timeline → Nat → Timeline
  | 0, t, _ => t
  | fuel + 1, t, entryEnd =>
    if t.cursor < entryEnd then stepLoop fuel t.stepForward entryEnd else t

/-- The `skipToEntryEnd` method. -/
def skipToEntryEnd (t : Timeline) : Timeline :=
  match t.getPosition t.cursor with
  | none => t
  | some (entryIndex, _) =>
    let entryEnd := t.getEntryStart entryIndex
      + getChunkCount (t.entries.getD entryIndex default)
    stepLoop (entryEnd - t.cursor) t entryEnd

/-- The `clear` method. -/
def clear (t : Timeline) : Timeline :=
  ({ t with entries := [], cursor := 0 }).notify

end Timeline

end RSCExplorer

namespace RSCExplorer

namespace SteppableStream

/-! ### Characterization of `release` -/

/-- Closed form of the release loop: the released count climbs to
`min count rows.length` (never dropping), and exactly the newly released
rows are appended to the output, in buffered order. -/
theorem releaseLoop_spec : ∀ (fuel : Nat) (rows : List Row) (rc count : Nat)
    (out : List Row), count - rc ≤ fuel →
    releaseLoop fuel rows rc count out =
      (max rc (min count rows.length),
       out ++ (rows.drop rc).take (min count rows.length - rc)) := by
  intro fuel
  induction fuel with
  | zero =>
    intro rows rc count out hf
    have hm : min count rows.length ≤ rc := by omega
    have h0 : min count rows.length - rc = 0 := by omega
    show (rc, out) = _
    rw [h0]
    simp [Nat.max_eq_left hm]
  | succ n ih =>
    intro rows rc count out hf
    rw [releaseLoop]
    by_cases hg : rc < count ∧ rc < rows.length
    · rw [if_pos hg]
      rw [ih rows (rc + 1) count _ (by omega)]
      have hm : rc + 1 ≤ min count rows.length := by omega
      simp only [Prod.mk.injEq]
      constructor
      · omega
      · have hd : rows.drop rc = rows[rc] :: rows.drop (rc + 1) :=
          List.drop_eq_getElem_cons hg.2
        have hgd : rows.getD rc [] = rows[rc] := List.getD_eq_getElem rows [] hg.2
        rw [hd, hgd]
        have hk : min count rows.length - rc = (min count rows.length - (rc + 1)) + 1 := by
          omega
        rw [hk, List.take_succ_cons, List.append_assoc]
        rfl
    · rw [if_neg hg]
      have hm : min count rows.length ≤ rc := by omega
      have : min count rows.length - rc = 0 := by omega
      rw [this]
      simp [Nat.max_eq_left hm]

/-- The released count after `release(count)`. -/
theorem release_releasedCount (s : SteppableStream) (count : Nat) :
    (s.release count).releasedCount = max s.releasedCount (min count s.rows.length) := by
  rw [release, releaseLoop_spec (count - s.releasedCount) _ _ _ _ (Nat.le_refl _)]
  by_cases h : s.rows.length ≤ max s.releasedCount (min count s.rows.length)
      ∧ s.buffered = true ∧ s.closed = false
  · rw [if_pos h]
  · rw [if_neg h]

/-- The rows buffered by a stream are untouched by `release`. -/
theorem release_rows (s : SteppableStream) (count : Nat) :
    (s.release count).rows = s.rows := by
  rw [release]
  split <;> rfl

/-- The `buffered` flag is untouched by `release`. -/
theorem release_buffered (s : SteppableStream) (count : Nat) :
    (s.release count).buffered = s.buffered := by
  rw [release]
  split <;> rfl

/-- The output-stream generation is untouched by `release`. -/
theorem release_generation (s : SteppableStream) (count : Nat) :
    (s.release count).generation = s.generation := by
  rw [release]
  split <;> rfl

/-- Exactly the newly released rows are enqueued, in order. -/
theorem release_output (s : SteppableStream) (count : Nat) :
    (s.release count).output =
      s.output ++ (s.rows.drop s.releasedCount).take
        (min count s.rows.length - s.releasedCount) := by
  rw [release, releaseLoop_spec (count - s.releasedCount) _ _ _ _ (Nat.le_refl _)]
  split <;> rfl

/-- The `closed` flag after `release(count)`. -/
theorem release_closed (s : SteppableStream) (count : Nat) :
    (s.release count).closed =
      (s.closed || (decide (s.rows.length ≤ (s.release count).releasedCount)
        && s.buffered)) := by
  rw [release_releasedCount, release,
    releaseLoop_spec (count - s.releasedCount) _ _ _ _ (Nat.le_refl _)]
  by_cases h : s.rows.length ≤ max s.releasedCount (min count s.rows.length)
      ∧ s.buffered = true ∧ s.closed = false
  · rw [if_pos h]
    simp [h.1, h.2.1]
  · rw [if_neg h]
    by_cases h1 : s.rows.length ≤ max s.releasedCount (min count s.rows.length)
    · by_cases h2 : s.buffered = true
      · have h3 : s.closed = true := by
          by_contra hc
          exact h ⟨h1, h2, by simpa using hc⟩
        simp [h1, h2, h3]
      · have h2' : s.buffered = false := by
          revert h2
          cases s.buffered <;> simp
        simp [h1, h2']
    · simp [h1]

/-- The close call fires exactly once: when the release brings the count to
the full row list while `buffered` holds and the stream is not yet closed. -/
theorem release_closeCount (s : SteppableStream) (count : Nat) :
    (s.release count).closeCount =
      s.closeCount +
        (if s.rows.length ≤ (s.release count).releasedCount ∧ s.buffered = true
            ∧ s.closed = false then 1 else 0) := by
  rw [release_releasedCount, release,
    releaseLoop_spec (count - s.releasedCount) _ _ _ _ (Nat.le_refl _)]
  by_cases h : s.rows.length ≤ max s.releasedCount (min count s.rows.length)
      ∧ s.buffered = true ∧ s.closed = false
  · rw [if_pos h, if_pos h]
  · rw [if_neg h, if_neg h]
    simp

/-- A release after the stream has closed is a complete no-op. -/
theorem release_after_close (s : SteppableStream) (count : Nat)
    (hc : s.closed = true) (hr : s.rows.length ≤ s.releasedCount) :
    s.release count = s := by
  rw [release, releaseLoop_spec (count - s.releasedCount) _ _ _ _ (Nat.le_refl _)]
  have hm : max s.releasedCount (min count s.rows.length) = s.releasedCount := by
    omega
  rw [if_neg]
  · have h0 : min count s.rows.length - s.releasedCount = 0 := by omega
    simp [hm, h0]
  · rw [hm]
    simp [hc]

end SteppableStream

end RSCExplorer

namespace RSCExplorer

namespace SteppableStream

/-! ### Characterization of `buffer` -/

/-- Unfolding `getLastD` one step. -/
theorem getLastD_cons' {α : Type} (a : α) (l : List α) (d : α) :
    (a :: l).getLastD d = l.getLastD a := by
  cases l <;> rfl

/-- On a non-empty list the last element is independent of the default. -/
theorem getLastD_irrel {α : Type} (l : List α) (d₁ d₂ : α) (h : l ≠ []) :
    l.getLastD d₁ = l.getLastD d₂ := by
  cases l with
  | nil => exact absurd rfl h
  | cons a l => rw [getLastD_cons', getLastD_cons']

/-- The defaulted last element of a non-empty list is a member. -/
theorem getLastD_mem {α : Type} : ∀ (l : List α) (d : α), l ≠ [] →
    l.getLastD d ∈ l := by
  intro l
  induction l with
  | nil => intro d h; exact absurd rfl h
  | cons a l ih =>
    intro d _
    cases l with
    | nil => simp
    | cons b l' =>
      rw [getLastD_cons']
      exact List.mem_cons_of_mem a (ih a (by simp))

/-- The defaulted last element of an append with non-empty second part. -/
theorem getLastD_append_right {α : Type} (A B : List α) (d : α) (h : B ≠ []) :
    (A ++ B).getLastD d = B.getLastD d := by
  rw [List.getLastD_eq_getLast?, List.getLastD_eq_getLast?,
    List.getLast?_append_of_ne_nil A h]

/-- Splitting a non-empty list back together from its completed pieces and
its defaulted last piece. -/
theorem dropLast_append_getLastD {α : Type} (l : List α) (d : α) (h : l ≠ []) :
    l.dropLast ++ [l.getLastD d] = l := by
  have h2 := List.dropLast_append_getLast h
  rw [List.getLastD_eq_getLast?, List.getLast?_eq_getLast l h]
  exact h2

/-- Splitting never produces an empty list of pieces. -/
theorem splitNL_ne_nil : ∀ s : List Char, splitNL s ≠ [] := by
  intro s
  cases s with
  | nil => simp [splitNL]
  | cons c cs =>
    rw [splitNL]
    split
    · simp
    · cases h : splitNL cs with
      | nil => simp [consHead]
      | cons r rs => simp [consHead]

/-- No split piece contains the newline delimiter. -/
theorem splitNL_mem_no_newline : ∀ (s : List Char) (r : Row),
    r ∈ splitNL s → '\n' ∉ r := by
  intro s
  induction s with
  | nil =>
    intro r hr
    simp only [splitNL, List.mem_singleton] at hr
    simp [hr]
  | cons c cs ih =>
    intro r hr
    rw [splitNL] at hr
    by_cases hc : c = '\n'
    · rw [if_pos hc] at hr
      rcases List.mem_cons.mp hr with h1 | h2
      · simp [h1]
      · exact ih r h2
    · rw [if_neg hc] at hr
      cases h : splitNL cs with
      | nil => exact absurd h (splitNL_ne_nil cs)
      | cons y ys =>
        rw [h] at hr
        simp only [consHead] at hr
        rcases List.mem_cons.mp hr with h1 | h2
        · subst h1
          intro hm
          rcases List.mem_cons.mp hm with h3 | h4
          · exact hc h3.symm
          · exact ih y (h ▸ List.mem_cons_self y ys) h4
        · exact ih r (h ▸ List.mem_cons_of_mem y h2)

/-- The last split piece contains no newline. -/
theorem splitNL_getLastD_no_newline (s : List Char) :
    '\n' ∉ (splitNL s).getLastD [] :=
  splitNL_mem_no_newline s _ (getLastD_mem (splitNL s) [] (splitNL_ne_nil s))

/-- Splitting a list with no newline yields that list as the only piece. -/
theorem splitNL_no_newline : ∀ p : List Char, '\n' ∉ p → splitNL p = [p] := by
  intro p
  induction p with
  | nil => intro _; rfl
  | cons c cs ih =>
    intro h
    have hc : ¬ c = '\n' := fun hc => h (hc ▸ List.mem_cons_self c cs)
    rw [splitNL, if_neg hc, ih (fun hm => h (List.mem_cons_of_mem c hm))]
    rfl

/-- Splitting a concatenation: the completed pieces of the first part, then
the split of its pending tail glued onto the second part. -/
theorem splitNL_append : ∀ X Y : List Char,
    splitNL (X ++ Y) =
      (splitNL X).dropLast ++ splitNL ((splitNL X).getLastD [] ++ Y) := by
  intro X
  induction X with
  | nil => intro Y; simp [splitNL]
  | cons c X' ih =>
    intro Y
    by_cases hc : c = '\n'
    · subst hc
      rw [List.cons_append, splitNL, if_pos rfl]
      conv_rhs => rw [splitNL, if_pos rfl]
      rw [List.dropLast_cons_of_ne_nil (splitNL_ne_nil X'), getLastD_cons',
        getLastD_irrel _ [] [] (splitNL_ne_nil X'), ih, List.cons_append]
    · rw [List.cons_append, splitNL, if_neg hc]
      conv_rhs => rw [splitNL, if_neg hc]
      rw [ih]
      cases h : splitNL X' with
      | nil => exact absurd h (splitNL_ne_nil X')
      | cons r rs =>
        cases rs with
        | nil =>
          show consHead c (splitNL (r ++ Y)) = splitNL (c :: (r ++ Y))
          rw [splitNL, if_neg hc]
        | cons r₂ rest =>
          rfl

/-- Closed form of the buffering fold: starting from already-buffered rows
and a pending tail without newline, after consuming all chunks the rows are
extended with every non-blank completed line of the concatenated content,
and the pending tail is the final incomplete piece. -/
theorem foldl_bufferStep : ∀ (chunks : List (List Char)) (rows : List Row)
    (p : List Char), '\n' ∉ p →
    chunks.foldl bufferStep (rows, p) =
      (rows ++ (splitNL (p ++ chunks.flatten)).dropLast.filter (fun l => !(isBlank l)),
       (splitNL (p ++ chunks.flatten)).getLastD []) := by
  intro chunks
  induction chunks with
  | nil =>
    intro rows p hp
    simp [splitNL_no_newline p hp]
  | cons c cs ih =>
    intro rows p hp
    rw [List.foldl_cons]
    have hstep : bufferStep (rows, p) c =
        (rows ++ (splitNL (p ++ c)).dropLast.filter (fun l => !(isBlank l)),
         (splitNL (p ++ c)).getLastD []) := rfl
    rw [hstep, ih _ _ (splitNL_getLastD_no_newline (p ++ c))]
    have hjoin : p ++ (c :: cs).flatten = (p ++ c) ++ cs.flatten := by
      simp
    rw [hjoin, splitNL_append (p ++ c) cs.flatten]
    have hne : splitNL ((splitNL (p ++ c)).getLastD [] ++ cs.flatten) ≠ [] :=
      splitNL_ne_nil _
    rw [List.dropLast_append_of_ne_nil _ hne, List.filter_append, ← List.append_assoc,
      getLastD_append_right _ _ _ hne]

/-- Normal buffering: the buffered rows are extended with exactly the
non-blank newline-separated records of the concatenated input (the trailing
partial record is flushed as a final row precisely when it is non-blank),
`buffered` is set, and the buffer promise resolves. -/
theorem buffer_ok (s : SteppableStream) (chunks : List (List Char)) :
    s.buffer { chunks := chunks, error := none } =
      ({ s with rows := s.rows ++ (splitNL chunks.flatten).filter (fun l => !(isBlank l)), buffered := true }, none) := by
  rw [buffer, foldl_bufferStep chunks s.rows [] (by simp)]
  simp only [List.nil_append]
  have hne := splitNL_ne_nil chunks.flatten
  have hsplit : (splitNL chunks.flatten).dropLast
      ++ [(splitNL chunks.flatten).getLastD []] = splitNL chunks.flatten :=
    dropLast_append_getLastD _ [] hne
  cases hb : isBlank ((splitNL chunks.flatten).getLastD []) with
  | false =>
    have hfilter : (splitNL chunks.flatten).filter (fun l => !(isBlank l))
        = (splitNL chunks.flatten).dropLast.filter (fun l => !(isBlank l))
          ++ [(splitNL chunks.flatten).getLastD []] := by
      conv_lhs => rw [← hsplit]
      rw [List.filter_append]
      simp only [List.getLastD_eq_getLast?] at hb ⊢
      simp [hb]
    rw [hfilter, ← List.append_assoc]
    rfl
  | true =>
    have hfilter : (splitNL chunks.flatten).filter (fun l => !(isBlank l))
        = (splitNL chunks.flatten).dropLast.filter (fun l => !(isBlank l)) := by
      conv_lhs => rw [← hsplit]
      rw [List.filter_append]
      simp only [List.getLastD_eq_getLast?] at hb ⊢
      simp [hb]
    rw [hfilter]
    rfl

/-- Buffering against a stream that errors after its chunks: the rows
completed before the failure are all retained (no trailing flush), the
`finally` block still sets `buffered`, and the buffer promise rejects with
the stream's error. -/
theorem buffer_error (s : SteppableStream) (chunks : List (List Char))
    (e : List Char) :
    s.buffer { chunks := chunks, error := some e } =
      ({ s with rows := s.rows ++ (splitNL chunks.flatten).dropLast.filter (fun l => !(isBlank l)), buffered := true }, some e) := by
  rw [buffer, foldl_bufferStep chunks s.rows [] (by simp)]
  rfl

end SteppableStream

end RSCExplorer

namespace RSCExplorer

namespace Timeline

/-! ### Start offsets, totals and positions -/

/-- Chunk count of the entry at index `i` (zero past the end). -/
def countD (es : List Entry) (i : Nat) : Nat := getChunkCount (es.getD i default)

/-- Closed form of `getEntryStart` on a plain entry list. -/
def startAt (es : List Entry) (i : Nat) : Nat :=
  ((es.take i).map getChunkCount).sum

/-- Closed form of `getTotalChunks` on a plain entry list. -/
def totalOf (es : List Entry) : Nat := (es.map getChunkCount).sum

theorem foldl_add_count : ∀ (es : List Entry) (a : Nat),
    es.foldl (fun sum e => sum + getChunkCount e) a = a + totalOf es := by
  intro es
  induction es with
  | nil => intro a; simp [totalOf]
  | cons e rest ih =>
    intro a
    rw [List.foldl_cons, ih]
    simp [totalOf]
    omega

theorem getTotalChunks_eq (t : Timeline) : t.getTotalChunks = totalOf t.entries := by
  rw [getTotalChunks, foldl_add_count]
  omega

theorem getEntryStart_eq (t : Timeline) (i : Nat) :
    t.getEntryStart i = startAt t.entries i := rfl

theorem startAt_zero (es : List Entry) : startAt es 0 = 0 := rfl

theorem startAt_nil (i : Nat) : startAt [] i = 0 := by simp [startAt]

theorem startAt_cons_succ (e : Entry) (es : List Entry) (i : Nat) :
    startAt (e :: es) (i + 1) = getChunkCount e + startAt es i := by
  simp [startAt]

theorem startAt_succ (es : List Entry) (i : Nat) (h : i < es.length) :
    startAt es (i + 1) = startAt es i + countD es i := by
  rw [startAt, startAt, List.take_succ, List.map_append, List.sum_append]
  have h1 : es[i]? = some es[i] := List.getElem?_eq_getElem h
  rw [h1]
  have h2 : countD es i = getChunkCount es[i] := by
    rw [countD, List.getD_eq_getElem es default h]
  rw [h2]
  simp

theorem startAt_add (es : List Entry) (i n : Nat) :
    startAt es (i + n) = startAt es i + (((es.drop i).take n).map getChunkCount).sum := by
  rw [startAt, startAt, List.take_add, List.map_append, List.sum_append]

theorem startAt_mono (es : List Entry) {i j : Nat} (h : i ≤ j) :
    startAt es i ≤ startAt es j := by
  have hj : j = i + (j - i) := by omega
  rw [hj, startAt_add]
  omega

theorem startAt_length (es : List Entry) : startAt es es.length = totalOf es := by
  rw [startAt, totalOf, List.take_length]

theorem startAt_of_length_le (es : List Entry) (i : Nat) (h : es.length ≤ i) :
    startAt es i = totalOf es := by
  rw [startAt, totalOf, List.take_of_length_le h]

theorem startAt_le_total (es : List Entry) (i : Nat) :
    startAt es i ≤ totalOf es := by
  by_cases h : i ≤ es.length
  · calc startAt es i ≤ startAt es es.length := startAt_mono es h
      _ = totalOf es := startAt_length es
  · rw [startAt_of_length_le es i (by omega)]

theorem startAt_succ_le_total (es : List Entry) (i : Nat) (h : i < es.length) :
    startAt es i + countD es i ≤ totalOf es := by
  rw [← startAt_succ es i h]
  exact startAt_le_total es (i + 1)

theorem totalOf_cons (e : Entry) (es : List Entry) :
    totalOf (e :: es) = getChunkCount e + totalOf es := by
  simp [totalOf]

theorem getPositionAux_shift : ∀ (es : List Entry) (r k : Nat),
    getPositionAux es r (k + 1) =
      (getPositionAux es r k).map (fun p => (p.1 + 1, p.2)) := by
  intro es
  induction es with
  | nil => intro r k; rfl
  | cons e rest ih =>
    intro r k
    rw [getPositionAux, getPositionAux]
    by_cases hr : r < getChunkCount e
    · rw [if_pos hr, if_pos hr]
      rfl
    · rw [if_neg hr, if_neg hr]
      exact ih (r - getChunkCount e) (k + 1)

theorem getPositionAux_some : ∀ (es : List Entry) (r i l : Nat),
    getPositionAux es r 0 = some (i, l) →
    i < es.length ∧ startAt es i ≤ r ∧ r = startAt es i + l ∧ l < countD es i := by
  intro es
  induction es with
  | nil => intro r i l h; simp [getPositionAux] at h
  | cons e rest ih =>
    intro r i l h
    rw [getPositionAux] at h
    by_cases hr : r < getChunkCount e
    · rw [if_pos hr] at h
      have hi : i = 0 ∧ l = r := by
        have := Option.some.inj h
        constructor <;> [exact (Prod.mk.injEq _ _ _ _ ▸ this).1.symm;
          exact (Prod.mk.injEq _ _ _ _ ▸ this).2.symm]
      obtain ⟨hi0, hlr⟩ := hi
      subst hi0
      subst hlr
      refine ⟨by simp, ?_, ?_, ?_⟩
      · rw [startAt_zero]; omega
      · rw [startAt_zero]; omega
      · exact hr
    · rw [if_neg hr, getPositionAux_shift] at h
      rcases Option.map_eq_some'.mp h with ⟨⟨j, l'⟩, hj, hf⟩
      have hij : i = j + 1 ∧ l = l' := by
        have := (Prod.mk.injEq _ _ _ _ ▸ hf)
        exact ⟨this.1.symm, this.2.symm⟩
      obtain ⟨hi1, hl1⟩ := hij
      subst hi1
      subst hl1
      obtain ⟨hjlen, hst, heq, hlt⟩ := ih (r - getChunkCount e) j _ hj
      refine ⟨by simpa using Nat.succ_lt_succ hjlen, ?_, ?_, hlt⟩
      · rw [startAt_cons_succ]
        omega
      · rw [startAt_cons_succ]
        omega

theorem getPositionAux_lt_total : ∀ (es : List Entry) (r : Nat),
    r < totalOf es → ∃ p, getPositionAux es r 0 = some p := by
  intro es
  induction es with
  | nil => intro r h; rw [totalOf] at h; simp at h
  | cons e rest ih =>
    intro r h
    rw [getPositionAux]
    by_cases hr : r < getChunkCount e
    · exact ⟨(0, r), by rw [if_pos hr]⟩
    · rw [if_neg hr]
      rw [totalOf_cons] at h
      obtain ⟨p, hp⟩ := ih (r - getChunkCount e) (by omega)
      refine ⟨(p.1 + 1, p.2), ?_⟩
      rw [getPositionAux_shift, hp]
      rfl

theorem getPositionAux_total_le : ∀ (es : List Entry) (r : Nat),
    totalOf es ≤ r → getPositionAux es r 0 = none := by
  intro es
  induction es with
  | nil => intro r _; rfl
  | cons e rest ih =>
    intro r h
    rw [totalOf_cons] at h
    rw [getPositionAux, if_neg (by omega), getPositionAux_shift,
      ih (r - getChunkCount e) (by omega)]
    rfl

theorem getPosition_some {t : Timeline} {c i l : Nat}
    (h : t.getPosition c = some (i, l)) :
    i < t.entries.length ∧ startAt t.entries i ≤ c ∧
      c = startAt t.entries i + l ∧ l < countD t.entries i :=
  getPositionAux_some t.entries c i l h

theorem getPosition_isSome {t : Timeline} {c : Nat} (h : c < totalOf t.entries) :
    ∃ p, t.getPosition c = some p :=
  getPositionAux_lt_total t.entries c h

theorem getPosition_none {t : Timeline} {c : Nat} (h : totalOf t.entries ≤ c) :
    t.getPosition c = none :=
  getPositionAux_total_le t.entries c h

end Timeline

end RSCExplorer

namespace RSCExplorer

namespace Timeline

/-! ### List surgery lemmas -/

theorem modifyIdx_length : ∀ (es : List Entry) (i : Nat)
    (f : SteppableStream → SteppableStream),
    (modifyIdx es i f).length = es.length := by
  intro es
  induction es with
  | nil => intro i f; rfl
  | cons e rest ih =>
    intro i f
    cases i with
    | zero => rfl
    | succ i' => simpa [modifyIdx] using ih i' f

theorem modifyIdx_getD_ne : ∀ (es : List Entry) (i : Nat)
    (f : SteppableStream → SteppableStream) (j : Nat), j ≠ i →
    (modifyIdx es i f).getD j default = es.getD j default := by
  intro es
  induction es with
  | nil => intro i f j _; rfl
  | cons e rest ih =>
    intro i f j hji
    cases i with
    | zero =>
      cases j with
      | zero => exact absurd rfl hji
      | succ j' => rfl
    | succ i' =>
      cases j with
      | zero => rfl
      | succ j' => exact ih i' f j' (by omega)

theorem modifyIdx_getD_self : ∀ (es : List Entry) (i : Nat)
    (f : SteppableStream → SteppableStream), i < es.length →
    (modifyIdx es i f).getD i default =
      { es.getD i default with stream := f (es.getD i default).stream } := by
  intro es
  induction es with
  | nil => intro i f h; simp at h
  | cons e rest ih =>
    intro i f h
    cases i with
    | zero => rfl
    | succ i' => exact ih i' f (by simpa using h)

theorem modifyIdx_map {β : Type} : ∀ (es : List Entry) (i : Nat)
    (f : SteppableStream → SteppableStream) (g : Entry → β),
    (∀ e : Entry, g { e with stream := f e.stream } = g e) →
    (modifyIdx es i f).map g = es.map g := by
  intro es
  induction es with
  | nil => intro i f g _; rfl
  | cons e rest ih =>
    intro i f g hg
    cases i with
    | zero => simp [modifyIdx, hg e]
    | succ i' => simp [modifyIdx, ih i' f g hg]

theorem startAt_congr {es es' : List Entry}
    (h : es'.map getChunkCount = es.map getChunkCount) (i : Nat) :
    startAt es' i = startAt es i := by
  rw [startAt, startAt, List.map_take, List.map_take, h]

theorem totalOf_congr {es es' : List Entry}
    (h : es'.map getChunkCount = es.map getChunkCount) :
    totalOf es' = totalOf es := by
  rw [totalOf, totalOf, h]

theorem length_congr {es es' : List Entry}
    (h : es'.map getChunkCount = es.map getChunkCount) :
    es'.length = es.length := by
  have := congrArg List.length h
  simpa using this

theorem countD_as_map (es : List Entry) (j : Nat) :
    countD es j = (es.map getChunkCount).getD j 0 := by
  have h0 : getChunkCount (default : Entry) = 0 := rfl
  rw [countD, ← h0, List.getD_map es default getChunkCount]

theorem countD_congr {es es' : List Entry}
    (h : es'.map getChunkCount = es.map getChunkCount) (j : Nat) :
    countD es' j = countD es j := by
  rw [countD_as_map, countD_as_map, h]

/-! ### The cursor-determines-release invariant -/

/-- The per-stream part of the central invariant, at a given global cursor
and entry start offset: the stream is fully buffered, its released count is
exactly the number of its rows lying at a global position below the cursor,
and it is closed exactly when its (non-empty) row list is fully released. -/
def streamConforms (cursor start : Nat) (s : SteppableStream) : Prop :=
  s.buffered = true ∧
  s.releasedCount = min s.rows.length (cursor - start) ∧
  (s.closed = true ↔ (0 < s.rows.length ∧ s.releasedCount = s.rows.length))

instance (cursor start : Nat) (s : SteppableStream) :
    Decidable (streamConforms cursor start s) := by
  unfold streamConforms
  infer_instance

/-- The full Timeline invariant: the cursor is within bounds and every
entry's stream conforms to the cursor. -/
def conforms (t : Timeline) : Prop :=
  t.cursor ≤ totalOf t.entries ∧
  ∀ i < t.entries.length,
    streamConforms t.cursor (startAt t.entries i) ((t.entries.getD i default).stream)

instance (t : Timeline) : Decidable (conforms t) := by
  unfold conforms
  infer_instance

end Timeline

end RSCExplorer

namespace RSCExplorer

namespace Timeline

/-! ### Preservation of the invariant by single-row release -/

/-- The per-entry data untouched by cursor movement: the tag, the buffered
rows, the `buffered` flag and the output-stream generation. -/
def eShape (e : Entry) : EntryKind × List Row × Bool × Nat :=
  (e.type, e.stream.rows, e.stream.buffered, e.stream.generation)

theorem counts_of_eShape {es es' : List Entry}
    (h : es'.map eShape = es.map eShape) :
    es'.map getChunkCount = es.map getChunkCount := by
  calc es'.map getChunkCount
      = (es'.map eShape).map (fun q => q.2.1.length) := by rw [List.map_map]; rfl
    _ = (es.map eShape).map (fun q => q.2.1.length) := by rw [h]
    _ = es.map getChunkCount := by rw [List.map_map]; rfl

theorem eShape_getD_congr {es es' : List Entry}
    (h : es'.map eShape = es.map eShape) (j : Nat) :
    eShape (es'.getD j default) = eShape (es.getD j default) := by
  calc eShape (es'.getD j default)
      = (es'.map eShape).getD j (eShape default) :=
        (List.getD_map es' default eShape).symm
    _ = (es.map eShape).getD j (eShape default) := by rw [h]
    _ = eShape (es.getD j default) := List.getD_map es default eShape

theorem releaseNext_of_none {t : Timeline} (h : t.getPosition t.cursor = none) :
    t.releaseNext = (t, false) := by
  rw [releaseNext, h]

/-- One successful `_releaseNext` from a conforming state with the cursor
strictly inside the timeline: it succeeds, advances the cursor by one,
changes no entry's shape and preserves the invariant. -/
theorem releaseNext_step (t : Timeline) (h : conforms t)
    (hc : t.cursor < totalOf t.entries) :
    t.releaseNext.2 = true ∧
    t.releaseNext.1.cursor = t.cursor + 1 ∧
    t.releaseNext.1.entries.map eShape = t.entries.map eShape ∧
    t.releaseNext.1.snapshot = t.snapshot ∧
    t.releaseNext.1.snapCounter = t.snapCounter ∧
    t.releaseNext.1.notifyCount = t.notifyCount ∧
    conforms t.releaseNext.1 := by
  obtain ⟨⟨i, l⟩, hpos⟩ := getPosition_isSome hc
  obtain ⟨hilen, hstle, hceq, hllt⟩ := getPosition_some hpos
  have hrn : t.releaseNext = (({ t with cursor := t.cursor + 1, entries := modifyIdx t.entries i (fun s => s.release (l + 1)) } : Timeline), true) := by
    rw [releaseNext, hpos]
  have hshape : (modifyIdx t.entries i (fun s => s.release (l + 1))).map eShape
      = t.entries.map eShape := by
    apply modifyIdx_map
    intro e
    rw [eShape, eShape]
    simp [SteppableStream.release_rows, SteppableStream.release_buffered,
      SteppableStream.release_generation]
  have hcounts := counts_of_eShape hshape
  rw [hrn]
  refine ⟨rfl, rfl, hshape, rfl, rfl, rfl, ?_, ?_⟩
  · show t.cursor + 1 ≤ totalOf (modifyIdx t.entries i (fun s => s.release (l + 1)))
    rw [totalOf_congr hcounts]
    omega
  · intro j hj
    have hj' : j < (modifyIdx t.entries i (fun s => s.release (l + 1))).length := hj
    rw [modifyIdx_length] at hj'
    show streamConforms (t.cursor + 1)
      (startAt (modifyIdx t.entries i (fun s => s.release (l + 1))) j)
      (((modifyIdx t.entries i (fun s => s.release (l + 1))).getD j default).stream)
    rw [startAt_congr hcounts]
    by_cases hji : j = i
    · subst hji
      rw [modifyIdx_getD_self t.entries j (fun s => s.release (l + 1)) hj']
      obtain ⟨hbuf, hrel, hclo⟩ := h.2 j hj'
      have hcount : countD t.entries j
          = (t.entries.getD j default).stream.rows.length := rfl
      have hl : (t.entries.getD j default).stream.releasedCount = l := by
        rw [hrel]
        omega
      have hclosed_old : (t.entries.getD j default).stream.closed = false := by
        rcases hcl : (t.entries.getD j default).stream.closed with _ | _
        · rfl
        · obtain ⟨hpos2, hfull⟩ := hclo.mp hcl
          omega
      refine ⟨?_, ?_, ?_⟩
      · show ((t.entries.getD j default).stream.release (l + 1)).buffered = true
        rw [SteppableStream.release_buffered]
        exact hbuf
      · show ((t.entries.getD j default).stream.release (l + 1)).releasedCount
          = min ((t.entries.getD j default).stream.release (l + 1)).rows.length
              (t.cursor + 1 - startAt t.entries j)
        rw [SteppableStream.release_releasedCount, SteppableStream.release_rows, hl]
        omega
      · show ((t.entries.getD j default).stream.release (l + 1)).closed = true ↔
          (0 < ((t.entries.getD j default).stream.release (l + 1)).rows.length ∧
           ((t.entries.getD j default).stream.release (l + 1)).releasedCount
             = ((t.entries.getD j default).stream.release (l + 1)).rows.length)
        rw [SteppableStream.release_closed, SteppableStream.release_rows,
          SteppableStream.release_releasedCount, hl, hclosed_old, hbuf]
        simp only [Bool.false_or, Bool.and_true, decide_eq_true_eq]
        constructor
        · intro hle
          omega
        · intro hcl
          omega
    · rw [modifyIdx_getD_ne t.entries i (fun s => s.release (l + 1)) j hji]
      obtain ⟨hbuf, hrel, hclo⟩ := h.2 j hj'
      refine ⟨hbuf, ?_, hclo⟩
      rw [hrel]
      have hcount : countD t.entries j
          = (t.entries.getD j default).stream.rows.length := rfl
      rcases Nat.lt_or_ge j i with hji2 | hji2
      · have h1 : startAt t.entries (j + 1) ≤ startAt t.entries i :=
          startAt_mono t.entries (by omega)
        have h2 : startAt t.entries (j + 1)
            = startAt t.entries j + countD t.entries j :=
          startAt_succ t.entries j hj'
        omega
      · have hji3 : i + 1 ≤ j := by omega
        have h1 : startAt t.entries (i + 1) ≤ startAt t.entries j :=
          startAt_mono t.entries hji3
        have h2 : startAt t.entries (i + 1)
            = startAt t.entries i + countD t.entries i :=
          startAt_succ t.entries i hilen
        omega

end Timeline

end RSCExplorer

namespace RSCExplorer

namespace Timeline

/-! ### The replay and stepping loops -/

theorem conforms_notify {t : Timeline} : conforms t.notify ↔ conforms t := Iff.rfl

theorem replayLoop_spec : ∀ (fuel : Nat) (t : Timeline) (target : Nat),
    conforms t → t.cursor ≤ target → target ≤ totalOf t.entries →
    fuel = target - t.cursor →
    conforms (replayLoop fuel t target) ∧
    (replayLoop fuel t target).entries.map eShape = t.entries.map eShape ∧
    (replayLoop fuel t target).cursor = target ∧
    (replayLoop fuel t target).snapshot = t.snapshot ∧
    (replayLoop fuel t target).snapCounter = t.snapCounter ∧
    (replayLoop fuel t target).notifyCount = t.notifyCount := by
  intro fuel
  induction fuel with
  | zero =>
    intro t target hcf hct htot hf
    refine ⟨hcf, rfl, ?_, rfl, rfl, rfl⟩
    show t.cursor = target
    omega
  | succ n ih =>
    intro t target hcf hct htot hf
    have hlt : t.cursor < target := by omega
    obtain ⟨hs2, hsc, hsh, hsnap, hsctr, hnc, hconf⟩ :=
      releaseNext_step t hcf (by omega)
    have hrn : t.releaseNext = (t.releaseNext.1, true) := by
      rw [← hs2]
    have hred : replayLoop (n + 1) t target = replayLoop n t.releaseNext.1 target := by
      conv_lhs => rw [replayLoop]
      rw [if_pos hlt, hrn]
    rw [hred]
    have htot' : target ≤ totalOf t.releaseNext.1.entries := by
      rw [totalOf_congr (counts_of_eShape hsh)]
      exact htot
    obtain ⟨c1, c2, c3, c4, c5, c6⟩ :=
      ih t.releaseNext.1 target hconf (by omega) htot' (by omega)
    exact ⟨c1, by rw [c2, hsh], c3, by rw [c4, hsnap], by rw [c5, hsctr],
      by rw [c6, hnc]⟩

/-- Behaviour of one `stepForward` from a conforming state. -/
theorem stepForward_spec (t : Timeline) (h : conforms t) :
    conforms t.stepForward ∧
    t.stepForward.entries.map eShape = t.entries.map eShape ∧
    t.stepForward.cursor
      = (if t.cursor < totalOf t.entries then t.cursor + 1 else t.cursor) ∧
    (totalOf t.entries ≤ t.cursor → t.stepForward = t) ∧
    (t.cursor < totalOf t.entries → t.stepForward.snapshot = none ∧
      t.stepForward.notifyCount = t.notifyCount + 1) := by
  have heq : t.stepForward
      = if t.getTotalChunks ≤ t.cursor then t else t.releaseNext.1.notify := rfl
  rw [getTotalChunks_eq] at heq
  by_cases hc : totalOf t.entries ≤ t.cursor
  · rw [heq, if_pos hc]
    exact ⟨h, rfl, by rw [if_neg (by omega)], fun _ => rfl, fun hlt => by omega⟩
  · rw [heq, if_neg hc]
    obtain ⟨hs2, hsc, hsh, hsnap, hsctr, hnc, hconf⟩ :=
      releaseNext_step t h (by omega)
    refine ⟨hconf, hsh, ?_, fun hge => by omega, fun _ => ⟨rfl, ?_⟩⟩
    · rw [if_pos (by omega)]
      exact hsc
    · show t.releaseNext.1.notifyCount + 1 = t.notifyCount + 1
      rw [hnc]

theorem stepLoop_conforms : ∀ (fuel : Nat) (t : Timeline) (entryEnd : Nat),
    conforms t →
    conforms (stepLoop fuel t entryEnd) ∧
    (stepLoop fuel t entryEnd).entries.map eShape = t.entries.map eShape := by
  intro fuel
  induction fuel with
  | zero => intro t ee h; exact ⟨h, rfl⟩
  | succ n ih =>
    intro t ee h
    by_cases hlt : t.cursor < ee
    · have hred : stepLoop (n + 1) t ee = stepLoop n t.stepForward ee := by
        conv_lhs => rw [stepLoop]
        rw [if_pos hlt]
      rw [hred]
      obtain ⟨h1, h2, _, _, _⟩ := stepForward_spec t h
      obtain ⟨c1, c2⟩ := ih t.stepForward ee h1
      exact ⟨c1, by rw [c2, h2]⟩
    · have hred : stepLoop (n + 1) t ee = t := by
        conv_lhs => rw [stepLoop]
        rw [if_neg hlt]
      rw [hred]
      exact ⟨h, rfl⟩

theorem skipToEntryEnd_conforms (t : Timeline) (h : conforms t) :
    conforms t.skipToEntryEnd ∧
    t.skipToEntryEnd.entries.map eShape = t.entries.map eShape := by
  rw [skipToEntryEnd]
  cases hpos : t.getPosition t.cursor with
  | none => exact ⟨h, rfl⟩
  | some p => exact stepLoop_conforms _ t _ h

end Timeline

end RSCExplorer

namespace RSCExplorer

namespace Timeline

/-! ### Backward seeks -/

theorem keepLoop_le_length : ∀ (es : List Entry) (target entryStart : Nat),
    keepLoop es target entryStart ≤ es.length := by
  intro es
  induction es with
  | nil => intro target st; simp [keepLoop]
  | cons e rest ih =>
    intro target st
    rw [keepLoop]
    split
    · simp
    · have := ih target (st + getChunkCount e)
      simp only [List.length_cons]
      omega

theorem keepLoop_lt_iff : ∀ (es : List Entry) (target entryStart j : Nat),
    j < es.length →
    (j < keepLoop es target entryStart ↔ entryStart + startAt es j ≤ target) := by
  intro es
  induction es with
  | nil => intro target st j hj; simp at hj
  | cons e rest ih =>
    intro target st j hj
    rw [keepLoop]
    by_cases hst : target < st
    · rw [if_pos hst]
      constructor
      · intro hlt
        omega
      · intro hle
        omega
    · rw [if_neg hst]
      cases j with
      | zero =>
        rw [startAt_zero]
        constructor
        · intro _
          omega
        · intro _
          omega
      | succ j' =>
        rw [startAt_cons_succ]
        have := ih target (st + getChunkCount e) j' (by simpa using hj)
        constructor
        · intro hlt
          have := this.mp (by omega)
          omega
        · intro hle
          have := this.mpr (by omega)
          omega

/-- Entry access into the reset-and-truncated entry list of a backward
seek. -/
theorem getD_take_map_reset (es : List Entry) (k j : Nat) (hj : j < k)
    (hjl : j < es.length) :
    (((es.take k).map (fun e => ({ e with stream := e.stream.reset } : Entry))).getD
        j default)
      = { es.getD j default with stream := (es.getD j default).stream.reset } := by
  have hl : j < (es.take k).length := by simp; omega
  have hm : j < ((es.take k).map
      (fun e => ({ e with stream := e.stream.reset } : Entry))).length := by
    simpa using hl
  rw [List.getD_eq_getElem _ _ hm, List.getElem_map, List.getElem_take,
    List.getD_eq_getElem _ _ hjl]

theorem counts_map_reset (es : List Entry) :
    (es.map (fun e => ({ e with stream := e.stream.reset } : Entry))).map
        getChunkCount
      = es.map getChunkCount := by
  rw [List.map_map]
  rfl

theorem startAt_take (es : List Entry) (k j : Nat) (hj : j ≤ k) :
    startAt (es.take k) j = startAt es j := by
  rw [startAt, startAt, List.take_take, Nat.min_eq_left hj]

theorem totalOf_take (es : List Entry) (k : Nat) :
    totalOf (es.take k) = startAt es k := rfl

/-- The state prepared by the backward branch of `seekTo` (entries
truncated at `k`, all streams reset, cursor zeroed) satisfies the
invariant, provided every kept stream was buffered. -/
theorem conforms_resetState (t : Timeline) (k : Nat)
    (hb : ∀ i < t.entries.length, (t.entries.getD i default).stream.buffered = true)
    (hk : k ≤ t.entries.length) :
    conforms ({ t with
      entries := (t.entries.take k).map
        (fun e => ({ e with stream := e.stream.reset } : Entry)),
      cursor := 0 } : Timeline) := by
  constructor
  · show 0 ≤ _
    omega
  · intro j hj
    have hjk : j < k := by
      have : j < ((t.entries.take k).map
          (fun e => ({ e with stream := e.stream.reset } : Entry))).length := hj
      simp at this
      omega
    have hjl : j < t.entries.length := by omega
    show streamConforms 0 _ _
    rw [getD_take_map_reset t.entries k j hjk hjl]
    refine ⟨?_, ?_, ?_⟩
    · show (t.entries.getD j default).stream.buffered = true
      exact hb j hjl
    · show (0 : Nat) = min ((t.entries.getD j default).stream.rows.length) (0 - _)
      omega
    · show (false = true) ↔ (0 < (t.entries.getD j default).stream.rows.length ∧
        (0 : Nat) = (t.entries.getD j default).stream.rows.length)
      constructor
      · intro hft
        exact absurd hft (by simp)
      · intro hand
        obtain ⟨h1, h2⟩ := hand
        omega

end Timeline

end RSCExplorer

namespace RSCExplorer

namespace Timeline

/-- The intermediate state of the backward branch of `seekTo`: entries
truncated to the first `k`, every stream reset, cursor zeroed. -/
def resetState (t : Timeline) (k : Nat) : Timeline :=
  { t with cursor := 0, entries := (t.entries.take k).map (fun e => ({ e with stream := e.stream.reset } : Entry)) }

theorem conforms_resetState' (t : Timeline) (k : Nat)
    (hb : ∀ i < t.entries.length, (t.entries.getD i default).stream.buffered = true)
    (hk : k ≤ t.entries.length) : conforms (resetState t k) :=
  conforms_resetState t k hb hk

theorem replay_notify_spec (t3 : Timeline) (target : Nat) (hconf : conforms t3)
    (h0 : t3.cursor = 0) (htot : target ≤ totalOf t3.entries) :
    conforms ((replayLoop target t3 target).notify) ∧
    ((replayLoop target t3 target).notify).cursor = target ∧
    ((replayLoop target t3 target).notify).entries.map eShape
      = t3.entries.map eShape ∧
    ((replayLoop target t3 target).notify).snapshot = none ∧
    ((replayLoop target t3 target).notify).notifyCount = t3.notifyCount + 1 := by
  obtain ⟨c1, c2, c3, c4, c5, c6⟩ :=
    replayLoop_spec target t3 target hconf (by omega) htot (by omega)
  refine ⟨conforms_notify.mpr c1, c3, c2, rfl, ?_⟩
  show (replayLoop target t3 target).notifyCount + 1 = t3.notifyCount + 1
  rw [c6]

/-- Full description of a backward seek: with every stream buffered, the
cursor in bounds and the target strictly below the cursor, `seekTo` keeps
exactly the entries starting at or before the target, resets each kept
stream (fresh output stream), replays every kept stream to the rows below
the target, lands the cursor on the target, and leaves a conforming state
with an invalidated snapshot. -/
theorem seekTo_backward_spec (t : Timeline) (target : Nat)
    (hb : ∀ i < t.entries.length, (t.entries.getD i default).stream.buffered = true)
    (hct : t.cursor ≤ totalOf t.entries)
    (hlt : target < t.cursor) :
    conforms (t.seekTo target) ∧
    (t.seekTo target).cursor = target ∧
    (t.seekTo target).entries.length = keepLoop t.entries target 0 ∧
    (∀ j < t.entries.length,
      (startAt t.entries j ≤ target ↔ j < (t.seekTo target).entries.length)) ∧
    (∀ j, j < (t.seekTo target).entries.length →
      ((t.seekTo target).entries.getD j default).type
          = (t.entries.getD j default).type ∧
      ((t.seekTo target).entries.getD j default).stream.rows
          = (t.entries.getD j default).stream.rows ∧
      ((t.seekTo target).entries.getD j default).stream.generation
          = (t.entries.getD j default).stream.generation + 1 ∧
      ((t.seekTo target).entries.getD j default).stream.releasedCount
          = min (countD t.entries j) (target - startAt t.entries j)) ∧
    (t.seekTo target).snapshot = none := by
  have hK := keepLoop_le_length t.entries target 0
  have hcl : min target (totalOf t.entries) = target := by omega
  have hbody : t.seekTo target
      = (replayLoop target (resetState t (keepLoop t.entries target 0)) target).notify := by
    have h1 : t.seekTo target = if min target t.getTotalChunks = t.cursor then t else if t.cursor < min target t.getTotalChunks then (replayLoop (min target t.getTotalChunks - t.cursor) t (min target t.getTotalChunks)).notify else (replayLoop (min target t.getTotalChunks) (resetState t (keepLoop t.entries (min target t.getTotalChunks) 0)) (min target t.getTotalChunks)).notify := rfl
    rw [h1, getTotalChunks_eq, hcl, if_neg (by omega), if_neg (by omega)]
  have hconf3 := conforms_resetState' t (keepLoop t.entries target 0) hb hK
  have hcounts3 : (resetState t (keepLoop t.entries target 0)).entries.map getChunkCount
      = (t.entries.take (keepLoop t.entries target 0)).map getChunkCount :=
    counts_map_reset (t.entries.take (keepLoop t.entries target 0))
  have htot3 : target ≤ totalOf (resetState t (keepLoop t.entries target 0)).entries := by
    rw [totalOf_congr hcounts3, totalOf_take]
    by_cases hKlen : keepLoop t.entries target 0 < t.entries.length
    · have hiff := keepLoop_lt_iff t.entries target 0
        (keepLoop t.entries target 0) hKlen
      have h2 : ¬ (0 + startAt t.entries (keepLoop t.entries target 0) ≤ target) :=
        fun hh => absurd (hiff.mpr hh) (by omega)
      omega
    · have hKeq : keepLoop t.entries target 0 = t.entries.length := by omega
      rw [hKeq, startAt_length]
      omega
  obtain ⟨r1, r2, r3, r4, r5⟩ :=
    replay_notify_spec (resetState t (keepLoop t.entries target 0)) target hconf3
      rfl htot3
  have hlen : ((replayLoop target (resetState t (keepLoop t.entries target 0))
      target).notify).entries.length = keepLoop t.entries target 0 := by
    rw [length_congr (counts_of_eShape r3)]
    show ((t.entries.take (keepLoop t.entries target 0)).map
      (fun e => ({ e with stream := e.stream.reset } : Entry))).length
        = keepLoop t.entries target 0
    simp
    omega
  rw [hbody]
  refine ⟨r1, r2, hlen, ?_, ?_, r4⟩
  · intro j hj
    rw [hlen]
    have hiff := keepLoop_lt_iff t.entries target 0 j hj
    constructor
    · intro hle
      exact hiff.mpr (by omega)
    · intro hltK
      have := hiff.mp hltK
      omega
  · intro j hj
    have hjK : j < keepLoop t.entries target 0 := by
      rw [hlen] at hj
      exact hj
    have hjl : j < t.entries.length := by omega
    have hsh := eShape_getD_congr r3 j
    have hsh2 : eShape ((resetState t (keepLoop t.entries target 0)).entries.getD
        j default)
        = eShape ({ t.entries.getD j default with
            stream := (t.entries.getD j default).stream.reset } : Entry) := by
      show eShape (((t.entries.take (keepLoop t.entries target 0)).map
        (fun e => ({ e with stream := e.stream.reset } : Entry))).getD j default) = _
      rw [getD_take_map_reset t.entries (keepLoop t.entries target 0) j hjK hjl]
    rw [hsh2] at hsh
    have hrows : (((replayLoop target (resetState t (keepLoop t.entries target 0))
        target).notify).entries.getD j default).stream.rows
        = (t.entries.getD j default).stream.rows :=
      congrArg (fun q => q.2.1) hsh
    have hsta : startAt ((replayLoop target (resetState t
        (keepLoop t.entries target 0)) target).notify).entries j
        = startAt t.entries j := by
      calc startAt ((replayLoop target (resetState t
              (keepLoop t.entries target 0)) target).notify).entries j
          = startAt (resetState t (keepLoop t.entries target 0)).entries j :=
            startAt_congr (counts_of_eShape r3) j
        _ = startAt (t.entries.take (keepLoop t.entries target 0)) j :=
            startAt_congr hcounts3 j
        _ = startAt t.entries j := startAt_take t.entries _ j (by omega)
    refine ⟨congrArg (fun q => q.1) hsh, hrows,
      congrArg (fun q => q.2.2.2) hsh, ?_⟩
    obtain ⟨hbu, hre, hcl2⟩ := r1.2 j hj
    rw [r2] at hre
    rw [hre, hrows, hsta]
    rfl

end Timeline

end RSCExplorer

namespace RSCExplorer

namespace Timeline

/-! ### Conformance of the remaining operations -/

theorem getD_append_left (A B : List Entry) (j : Nat) (h : j < A.length) :
    (A ++ B).getD j default = A.getD j default := by
  rw [List.getD_eq_getElem?_getD, List.getD_eq_getElem?_getD,
    List.getElem?_append_left h]

theorem getD_append_right (A B : List Entry) (j : Nat) (h : A.length ≤ j) :
    (A ++ B).getD j default = B.getD (j - A.length) default := by
  rw [List.getD_eq_getElem?_getD, List.getD_eq_getElem?_getD,
    List.getElem?_append_right h]

theorem getD_drop (A : List Entry) (m j : Nat) :
    (A.drop m).getD j default = A.getD (m + j) default := by
  rw [List.getD_eq_getElem?_getD, List.getD_eq_getElem?_getD,
    List.getElem?_drop A m j]

theorem startAt_append_left (A B : List Entry) (j : Nat) (h : j ≤ A.length) :
    startAt (A ++ B) j = startAt A j := by
  rw [startAt, startAt, List.take_append_of_le_length h]

theorem startAt_append_add (A B : List Entry) (n : Nat) :
    startAt (A ++ B) (A.length + n) = totalOf A + startAt B n := by
  rw [startAt, List.take_append, List.map_append, List.sum_append]
  rfl

theorem totalOf_append (A B : List Entry) :
    totalOf (A ++ B) = totalOf A + totalOf B := by
  simp [totalOf]

theorem conforms_init : conforms init := by decide

/-- A stream handed to the timeline after buffering completed but before
any release: `buffered` already true, nothing released, not closed. -/
def freshFor (s : SteppableStream) : Prop :=
  s.buffered = true ∧ s.releasedCount = 0 ∧ s.closed = false

instance (s : SteppableStream) : Decidable (freshFor s) := by
  unfold freshFor
  infer_instance

theorem streamConforms_fresh (s : SteppableStream) (hs : freshFor s)
    (cursor start : Nat) (h : cursor ≤ start) : streamConforms cursor start s := by
  obtain ⟨h1, h2, h3⟩ := hs
  refine ⟨h1, ?_, ?_⟩
  · rw [h2]
    omega
  · rw [h3, h2]
    constructor
    · intro hft
      exact absurd hft (by simp)
    · intro hand
      obtain ⟨ha, hb2⟩ := hand
      omega

theorem conforms_setRender (t : Timeline) (s : SteppableStream)
    (hs : freshFor s) : conforms (t.setRender s) := by
  refine conforms_notify.mpr ?_
  constructor
  · exact Nat.zero_le _
  · intro i hi
    have hi' : i < 1 := hi
    have hi0 : i = 0 := by omega
    subst hi0
    exact streamConforms_fresh s hs 0 _ (Nat.zero_le _)

theorem conforms_addAction (t : Timeline) (h : conforms t) (name : String)
    (args : List String) (s : SteppableStream) (hs : freshFor s) :
    conforms (t.addAction name args s) := by
  refine conforms_notify.mpr ?_
  constructor
  · show t.cursor ≤ totalOf (t.entries
      ++ [({ type := EntryKind.action name args, stream := s } : Entry)])
    rw [totalOf_append]
    have := h.1
    omega
  · intro i hi
    have hi' : i < t.entries.length + 1 := by
      have : i < (t.entries
        ++ [({ type := EntryKind.action name args, stream := s } : Entry)]).length := hi
      simpa using this
    show streamConforms t.cursor
      (startAt (t.entries
        ++ [({ type := EntryKind.action name args, stream := s } : Entry)]) i)
      (((t.entries
        ++ [({ type := EntryKind.action name args, stream := s } : Entry)]).getD
          i default).stream)
    by_cases hil : i < t.entries.length
    · rw [getD_append_left _ _ i hil, startAt_append_left _ _ i (by omega)]
      exact h.2 i hil
    · have hieq : i = t.entries.length := by omega
      subst hieq
      rw [getD_append_right _ _ _ (by omega), startAt_append_left _ _ _ (by omega)]
      have hgd : ([({ type := EntryKind.action name args, stream := s } : Entry)].getD
          (t.entries.length - t.entries.length) default).stream = s := by
        rw [Nat.sub_self]
        rfl
      rw [hgd, startAt_length]
      exact streamConforms_fresh s hs t.cursor (totalOf t.entries) h.1

theorem conforms_clear (t : Timeline) : conforms t.clear := by
  refine conforms_notify.mpr ?_
  constructor
  · exact Nat.zero_le _
  · intro i hi
    exact absurd hi (by simp)

theorem seekTo_conforms (t : Timeline) (h : conforms t) (target : Nat) :
    conforms (t.seekTo target) := by
  have h1 : t.seekTo target = if min target t.getTotalChunks = t.cursor then t else if t.cursor < min target t.getTotalChunks then (replayLoop (min target t.getTotalChunks - t.cursor) t (min target t.getTotalChunks)).notify else (replayLoop (min target t.getTotalChunks) (resetState t (keepLoop t.entries (min target t.getTotalChunks) 0)) (min target t.getTotalChunks)).notify := rfl
  rw [getTotalChunks_eq] at h1
  by_cases he : min target (totalOf t.entries) = t.cursor
  · rw [h1, if_pos he]
    exact h
  · by_cases hf : t.cursor < min target (totalOf t.entries)
    · rw [h1, if_neg he, if_pos hf]
      obtain ⟨c1, _, _, _, _, _⟩ := replayLoop_spec
        (min target (totalOf t.entries) - t.cursor) t
        (min target (totalOf t.entries)) h (by omega) (by omega) rfl
      exact conforms_notify.mpr c1
    · have hct := h.1
      have htlt : target < t.cursor := by omega
      exact (seekTo_backward_spec t target (fun i hi => (h.2 i hi).1) hct htlt).1

theorem conforms_stepBackward (t : Timeline) (h : conforms t) :
    conforms t.stepBackward := by
  rw [stepBackward]
  by_cases h0 : t.cursor = 0
  · rw [if_pos h0]
    exact h
  · rw [if_neg h0]
    exact seekTo_conforms t h (t.cursor - 1)

end Timeline

end RSCExplorer

namespace RSCExplorer

namespace Timeline

theorem getD_take (es : List Entry) (k j : Nat) (hj : j < k) :
    (es.take k).getD j default = es.getD j default := by
  rw [List.getD_eq_getElem?_getD, List.getD_eq_getElem?_getD,
    List.getElem?_take_of_lt hj]

theorem canDeleteEntry_true {t : Timeline} {i : Nat}
    (hcd : t.canDeleteEntry i = true) :
    i < t.entries.length ∧ t.cursor ≤ startAt t.entries i := by
  rw [canDeleteEntry] at hcd
  by_cases h1 : i < t.entries.length
  · rw [if_pos h1] at hcd
    exact ⟨h1, by simpa [getEntryStart_eq] using hcd⟩
  · rw [if_neg h1] at hcd
    simp at hcd

theorem conforms_deleteEntry (t : Timeline) (h : conforms t) (i : Nat) :
    conforms (t.deleteEntry i).1 := by
  by_cases hcd : t.canDeleteEntry i = true
  · obtain ⟨hil, hcs⟩ := canDeleteEntry_true hcd
    have hred : (t.deleteEntry i).1
        = ({ t with entries := t.entries.take i ++ t.entries.drop (i + 1) } : Timeline).notify := by
      rw [deleteEntry, if_pos hcd]
    rw [hred]
    refine conforms_notify.mpr ?_
    have hlentake : (t.entries.take i).length = i := by
      simp
      omega
    constructor
    · show t.cursor ≤ totalOf (t.entries.take i ++ t.entries.drop (i + 1))
      rw [totalOf_append]
      have h2 : totalOf (t.entries.take i) = startAt t.entries i := rfl
      omega
    · intro j hj
      have hj' : j < t.entries.length - 1 := by
        have : j < (t.entries.take i ++ t.entries.drop (i + 1)).length := hj
        simp at this
        omega
      show streamConforms t.cursor
        (startAt (t.entries.take i ++ t.entries.drop (i + 1)) j)
        (((t.entries.take i ++ t.entries.drop (i + 1)).getD j default).stream)
      by_cases hji : j < i
      · rw [getD_append_left _ _ j (by omega), getD_take t.entries i j hji,
          startAt_append_left _ _ j (by omega), startAt_take t.entries i j (by omega)]
        exact h.2 j (by omega)
      · have hsplit : j = (t.entries.take i).length + (j - i) := by omega
        rw [getD_append_right _ _ j (by omega), hlentake, getD_drop]
        have hidx : i + 1 + (j - i) = j + 1 := by omega
        rw [hidx]
        have hsta : startAt (t.entries.take i ++ t.entries.drop (i + 1)) j
            = startAt t.entries i + startAt (t.entries.drop (i + 1)) (j - i) := by
          conv_lhs => rw [hsplit]
          rw [startAt_append_add]
          rfl
        rw [hsta]
        obtain ⟨hbu, hre, hcl⟩ := h.2 (j + 1) (by omega)
        refine ⟨hbu, ?_, hcl⟩
        have hmono : startAt t.entries i ≤ startAt t.entries (j + 1) :=
          startAt_mono t.entries (by omega)
        omega
  · have hred : (t.deleteEntry i).1 = t := by
      rw [deleteEntry, if_neg hcd]
    rw [hred]
    exact h

end Timeline

end RSCExplorer

namespace RSCExplorer

namespace Timeline

/-! ### Reachable timeline states -/

/-- Timelines reachable from the initial empty state through the public
mutation surface, where every stream handed to `setRender` / `addAction`
is fully buffered and untouched (fresh) at the moment it is added. -/
inductive Reachable : Timeline → Prop where
  | init : Reachable Timeline.init
  | setRender : ∀ {t : Timeline} {s : SteppableStream},
      Reachable t → freshFor s → Reachable (t.setRender s)
  | addAction : ∀ {t : Timeline} (name : String) (args : List String)
      {s : SteppableStream},
      Reachable t → freshFor s → Reachable (t.addAction name args s)
  | deleteEntry : ∀ {t : Timeline} (i : Nat),
      Reachable t → Reachable (t.deleteEntry i).1
  | stepForward : ∀ {t : Timeline}, Reachable t → Reachable t.stepForward
  | stepBackward : ∀ {t : Timeline}, Reachable t → Reachable t.stepBackward
  | seekTo : ∀ {t : Timeline} (target : Nat),
      Reachable t → Reachable (t.seekTo target)
  | skipToEntryEnd : ∀ {t : Timeline}, Reachable t → Reachable t.skipToEntryEnd
  | clear : ∀ {t : Timeline}, Reachable t → Reachable t.clear

/-- Every reachable timeline satisfies the central invariant. -/
theorem reachable_conforms : ∀ {t : Timeline}, Reachable t → conforms t := by
  intro t h
  induction h with
  | init => exact conforms_init
  | setRender hr hs => exact conforms_setRender _ _ hs
  | addAction name args hr hs ih => exact conforms_addAction _ ih name args _ hs
  | deleteEntry i hr ih => exact conforms_deleteEntry _ ih i
  | stepForward hr ih => exact (stepForward_spec _ ih).1
  | stepBackward hr ih => exact conforms_stepBackward _ ih
  | seekTo target hr ih => exact seekTo_conforms _ ih target
  | skipToEntryEnd hr ih => exact (skipToEntryEnd_conforms _ ih).1
  | clear hr => exact conforms_clear _

end Timeline

end RSCExplorer

namespace RSCExplorer

namespace Timeline

/-! ### Iterated stepping -/

theorem stepForwardN_spec : ∀ (n : Nat) (t : Timeline), conforms t →
    t.cursor + n ≤ totalOf t.entries →
    conforms (Timeline.stepForward^[n] t) ∧
    (Timeline.stepForward^[n] t).entries.map eShape = t.entries.map eShape ∧
    (Timeline.stepForward^[n] t).cursor = t.cursor + n := by
  intro n
  induction n with
  | zero =>
    intro t h _
    rw [Function.iterate_zero_apply]
    exact ⟨h, rfl, rfl⟩
  | succ m ih =>
    intro t h hn
    rw [Function.iterate_succ_apply]
    obtain ⟨c1, c2, c3, _, _⟩ := stepForward_spec t h
    have hc3 : t.stepForward.cursor = t.cursor + 1 := by
      rw [c3, if_pos (by omega)]
    have htot : t.stepForward.cursor + m ≤ totalOf t.stepForward.entries := by
      rw [hc3, totalOf_congr (counts_of_eShape c2)]
      omega
    obtain ⟨d1, d2, d3⟩ := ih t.stepForward c1 htot
    refine ⟨d1, by rw [d2, c2], ?_⟩
    rw [d3, hc3]
    omega

/-- Stepping `totalChunks` times from cursor 0 on a conforming timeline
releases every row of every entry and closes every non-empty stream. -/
theorem run_to_end (t : Timeline) (h : conforms t) (h0 : t.cursor = 0) :
    (Timeline.stepForward^[totalOf t.entries] t).cursor = totalOf t.entries ∧
    (Timeline.stepForward^[totalOf t.entries] t).entries.length
      = t.entries.length ∧
    ∀ i, i < (Timeline.stepForward^[totalOf t.entries] t).entries.length →
      ((Timeline.stepForward^[totalOf t.entries] t).entries.getD
          i default).stream.releasedCount
        = ((Timeline.stepForward^[totalOf t.entries] t).entries.getD
            i default).stream.rows.length ∧
      (0 < ((Timeline.stepForward^[totalOf t.entries] t).entries.getD
          i default).stream.rows.length →
        ((Timeline.stepForward^[totalOf t.entries] t).entries.getD
            i default).stream.closed = true) := by
  obtain ⟨c1, c2, c3⟩ := stepForwardN_spec (totalOf t.entries) t h (by omega)
  have hcur : (Timeline.stepForward^[totalOf t.entries] t).cursor
      = totalOf t.entries := by omega
  refine ⟨hcur, length_congr (counts_of_eShape c2), ?_⟩
  intro i hi
  have hil : i < t.entries.length := by
    rw [← length_congr (counts_of_eShape c2)]
    exact hi
  obtain ⟨hbu, hre, hcl⟩ := c1.2 i hi
  have hsta : startAt (Timeline.stepForward^[totalOf t.entries] t).entries i
      = startAt t.entries i := startAt_congr (counts_of_eShape c2) i
  have hcnt : countD (Timeline.stepForward^[totalOf t.entries] t).entries i
      = countD t.entries i := countD_congr (counts_of_eShape c2) i
  have hbound : startAt t.entries i + countD t.entries i ≤ totalOf t.entries :=
    startAt_succ_le_total t.entries i hil
  have hfull : ((Timeline.stepForward^[totalOf t.entries] t).entries.getD
      i default).stream.releasedCount
      = ((Timeline.stepForward^[totalOf t.entries] t).entries.getD
          i default).stream.rows.length := by
    rw [hre, hcur, hsta]
    have hcd : ((Timeline.stepForward^[totalOf t.entries] t).entries.getD
        i default).stream.rows.length
        = countD (Timeline.stepForward^[totalOf t.entries] t).entries i := rfl
    rw [hcd, hcnt]
    omega
  refine ⟨hfull, ?_⟩
  intro hpos
  exact hcl.mpr ⟨hpos, hfull⟩

/-! ### Snapshot behaviour -/

theorem getSnapshot_snd_snapshot (t : Timeline) :
    (t.getSnapshot.2).snapshot = some t.getSnapshot.1 := by
  cases hs : t.snapshot with
  | some s =>
    rw [getSnapshot, hs]
    exact hs
  | none => rw [getSnapshot, hs]

theorem getSnapshot_twice (t : Timeline) :
    (t.getSnapshot.2).getSnapshot = (t.getSnapshot.1, t.getSnapshot.2) := by
  rw [getSnapshot, getSnapshot_snd_snapshot t]

theorem getSnapshot_of_none (t : Timeline) (h : t.snapshot = none) :
    t.getSnapshot.1.entries = t.entries ∧
    t.getSnapshot.1.cursor = t.cursor ∧
    t.getSnapshot.1.totalChunks = t.getTotalChunks ∧
    t.getSnapshot.1.isAtStart = (t.cursor == 0) ∧
    t.getSnapshot.1.isAtEnd = decide (t.getTotalChunks ≤ t.cursor) := by
  rw [getSnapshot, h]
  exact ⟨rfl, rfl, rfl, rfl, rfl⟩

theorem stepForward_snapshot_of_lt (t : Timeline)
    (h : t.cursor < totalOf t.entries) : t.stepForward.snapshot = none := by
  have heq : t.stepForward
      = if t.getTotalChunks ≤ t.cursor then t else t.releaseNext.1.notify := rfl
  rw [heq, getTotalChunks_eq, if_neg (by omega)]
  rfl

theorem seekTo_snapshot_of_ne (t : Timeline) (target : Nat)
    (h : min target (totalOf t.entries) ≠ t.cursor) :
    (t.seekTo target).snapshot = none := by
  have h1 : t.seekTo target = if min target t.getTotalChunks = t.cursor then t else if t.cursor < min target t.getTotalChunks then (replayLoop (min target t.getTotalChunks - t.cursor) t (min target t.getTotalChunks)).notify else (replayLoop (min target t.getTotalChunks) (resetState t (keepLoop t.entries (min target t.getTotalChunks) 0)) (min target t.getTotalChunks)).notify := rfl
  rw [h1, getTotalChunks_eq, if_neg h]
  by_cases hf : t.cursor < min target (totalOf t.entries)
  · rw [if_pos hf]
    rfl
  · rw [if_neg hf]
    rfl

theorem stepBackward_snapshot_of_pos (t : Timeline) (h : 0 < t.cursor) :
    t.stepBackward.snapshot = none := by
  rw [stepBackward, if_neg (by omega)]
  exact seekTo_snapshot_of_ne t (t.cursor - 1) (by omega)

theorem stepLoop_snapshot_none : ∀ (fuel : Nat) (t : Timeline) (entryEnd : Nat),
    t.snapshot = none → (stepLoop fuel t entryEnd).snapshot = none := by
  intro fuel
  induction fuel with
  | zero => intro t ee h; exact h
  | succ n ih =>
    intro t ee h
    by_cases hlt : t.cursor < ee
    · have hred : stepLoop (n + 1) t ee = stepLoop n t.stepForward ee := by
        conv_lhs => rw [stepLoop]
        rw [if_pos hlt]
      rw [hred]
      apply ih
      by_cases hc : t.cursor < totalOf t.entries
      · exact stepForward_snapshot_of_lt t hc
      · have heq : t.stepForward
            = if t.getTotalChunks ≤ t.cursor then t else t.releaseNext.1.notify := rfl
        rw [heq, getTotalChunks_eq, if_pos (by omega)]
        exact h
    · have hred : stepLoop (n + 1) t ee = t := by
        conv_lhs => rw [stepLoop]
        rw [if_neg hlt]
      rw [hred]
      exact h

theorem skipToEntryEnd_snapshot (t : Timeline)
    (h : (t.getPosition t.cursor).isSome) : t.skipToEntryEnd.snapshot = none := by
  rw [skipToEntryEnd]
  cases hpos : t.getPosition t.cursor with
  | none => rw [hpos] at h; simp at h
  | some p =>
    obtain ⟨i, l⟩ := p
    obtain ⟨hilen, hstle, hceq, hllt⟩ := getPosition_some hpos
    have hend : t.cursor < t.getEntryStart i
        + getChunkCount (t.entries.getD i default) := by
      rw [getEntryStart_eq]
      have : countD t.entries i = getChunkCount (t.entries.getD i default) := rfl
      omega
    show (stepLoop (t.getEntryStart i + getChunkCount (t.entries.getD i default)
        - t.cursor) t
        (t.getEntryStart i + getChunkCount (t.entries.getD i default))).snapshot
      = none
    obtain ⟨m, hm⟩ : ∃ m, t.getEntryStart i
        + getChunkCount (t.entries.getD i default) - t.cursor = m + 1 :=
      ⟨t.getEntryStart i + getChunkCount (t.entries.getD i default) - t.cursor - 1,
        by omega⟩
    rw [hm]
    have hred : stepLoop (m + 1) t (t.getEntryStart i
        + getChunkCount (t.entries.getD i default))
        = stepLoop m t.stepForward (t.getEntryStart i
          + getChunkCount (t.entries.getD i default)) := by
      conv_lhs => rw [stepLoop]
      rw [if_pos hend]
    rw [hred]
    apply stepLoop_snapshot_none
    apply stepForward_snapshot_of_lt
    have hbound : startAt t.entries i + countD t.entries i ≤ totalOf t.entries :=
      startAt_succ_le_total t.entries i hilen
    omega

end Timeline

end RSCExplorer

namespace RSCExplorer

open Timeline SteppableStream

/-! ### Concrete fixtures for witnesses and counterexamples -/

/-- A stream built as the source does: constructed fresh, then fully
drained from a single-chunk inbound stream. -/
def mkStream (text : List Char) : SteppableStream :=
  (SteppableStream.new.buffer { chunks := [text], error := none }).1

/-- A fully buffered three-row render stream. -/
def renderStream3 : SteppableStream := mkStream ['x', '\n', 'y', '\n', 'z', '\n']

/-- A fully buffered two-row action stream. -/
def actionStream2 : SteppableStream := mkStream ['u', '\n', 'v', '\n']

/-- A timeline with a 3-row render entry and a 2-row action entry. -/
def demoTimeline : Timeline :=
  (Timeline.init.setRender renderStream3).addAction "act" [] actionStream2

/-- The demo timeline scrubbed forward to global position 4. -/
def demoAt4 : Timeline := demoTimeline.seekTo 4

/-- The demo timeline after a single forward step. -/
def demoAt1 : Timeline := demoTimeline.stepForward

/-- A timeline whose single render entry buffered zero rows. -/
def emptyStreamTimeline : Timeline := Timeline.init.setRender (mkStream [])

/-- A two-entry timeline still at cursor 0. -/
def twoEntriesAtZero : Timeline :=
  (Timeline.init.setRender (mkStream ['x', '\n'])).addAction "act" []
    (mkStream ['u', '\n'])

/-! ### Claim C1 -/

/-- The number of rows of an entry occupying global positions
`start, start+1, …, start+count-1` that lie strictly below the cursor. -/
def rowsBelow (cursor start count : Nat) : Nat :=
  ((List.range count).filter (fun k => decide (start + k < cursor))).length

theorem rowsBelow_eq_min (cursor start count : Nat) :
    rowsBelow cursor start count = min count (cursor - start) := by
  induction count with
  | zero => simp [rowsBelow]
  | succ m ih =>
    rw [rowsBelow, List.range_succ, List.filter_append, List.length_append]
    rw [rowsBelow] at ih
    rw [ih]
    by_cases h : start + m < cursor
    · have h1 : (List.filter (fun k => decide (start + k < cursor)) [m]).length
          = 1 := by simp [h]
      rw [h1]
      omega
    · have h1 : (List.filter (fun k => decide (start + k < cursor)) [m]).length
          = 0 := by simp [h]
      rw [h1]
      omega

/-- The central invariant as the claim states it: cursor within bounds,
and every entry's released count equal to the number of that entry's rows
at global positions below the cursor. -/
def CursorReleaseInv (t : Timeline) : Prop :=
  t.cursor ≤ t.getTotalChunks ∧
  ∀ i < t.entries.length,
    (t.entries.getD i default).stream.releasedCount
      = rowsBelow t.cursor (t.getEntryStart i)
          (Timeline.getChunkCount (t.entries.getD i default))

/-- Claim C1: for a Timeline whose entries' streams are all fully buffered
before any mutation, after every sequence of public operations starting
from the initial empty state, `0 ≤ cursor ≤ totalChunks` holds and every
entry's `releasedCount` equals exactly the number of that entry's rows at
global positions `< cursor`. -/
theorem c1_cursor_determines_release (t : Timeline) (h : Timeline.Reachable t) :
    CursorReleaseInv t := by
  obtain ⟨h1, h2⟩ := Timeline.reachable_conforms h
  refine ⟨by rw [Timeline.getTotalChunks_eq]; exact h1, ?_⟩
  intro i hi
  obtain ⟨_, hre, _⟩ := h2 i hi
  rw [rowsBelow_eq_min, hre]
  rfl

/-- Witness for C1 at a concrete reachable timeline. -/
theorem c1_cursor_determines_release_witness : CursorReleaseInv demoAt1 :=
  c1_cursor_determines_release demoAt1
    (Timeline.Reachable.stepForward
      (Timeline.Reachable.addAction "act" []
        (Timeline.Reachable.setRender Timeline.Reachable.init (by decide))
        (by decide)))

/-! ### Claim C2 -/

/-- What a backward seek does, per entry: the entries starting at or
before the target survive (the rest are removed), each survivor keeps its
tag and rows, is reset (one fresh output stream) and replayed to exactly
the rows below the target, and the cursor lands on the target. -/
def SeekBackSpec (t : Timeline) (target : Nat) : Prop :=
  (t.seekTo target).cursor = target ∧
  (∀ j < t.entries.length,
    (t.getEntryStart j ≤ target ↔ j < (t.seekTo target).entries.length)) ∧
  ∀ j, j < (t.seekTo target).entries.length →
    ((t.seekTo target).entries.getD j default).type
        = (t.entries.getD j default).type ∧
    ((t.seekTo target).entries.getD j default).stream.rows
        = (t.entries.getD j default).stream.rows ∧
    ((t.seekTo target).entries.getD j default).stream.generation
        = (t.entries.getD j default).stream.generation + 1 ∧
    ((t.seekTo target).entries.getD j default).stream.releasedCount
        = min (Timeline.getChunkCount (t.entries.getD j default))
            (target - t.getEntryStart j)

/-- The claim's concrete scenario: `[render(3), action(2)]` at cursor 4;
`seekTo 1` deletes the action entry, resets and replays the render entry
to released count 1, and leaves `cursor = 1`, `totalChunks = 3`. -/
def SeekBackDemo : Prop :=
  demoAt4.cursor = 4 ∧ demoAt4.getTotalChunks = 5 ∧
  demoAt4.entries.length = 2 ∧
  (demoAt4.seekTo 1).entries.length = 1 ∧
  ((demoAt4.seekTo 1).entries.getD 0 default).type = EntryKind.render ∧
  ((demoAt4.seekTo 1).entries.getD 0 default).stream.rows.length = 3 ∧
  ((demoAt4.seekTo 1).entries.getD 0 default).stream.releasedCount = 1 ∧
  ((demoAt4.seekTo 1).entries.getD 0 default).stream.generation
      = (demoAt4.entries.getD 0 default).stream.generation + 1 ∧
  (demoAt4.seekTo 1).cursor = 1 ∧
  (demoAt4.seekTo 1).getTotalChunks = 3

instance : Decidable SeekBackDemo := by
  unfold SeekBackDemo
  infer_instance

/-- Claim C2: a backward `seekTo(target)` removes exactly the entries
starting strictly after the target, resets every remaining entry's stream,
zeroes the cursor and replays single-row releases until the cursor equals
the target; concretely, from `[render(3), action(2)]` at cursor 4,
`seekTo 1` deletes the action, resets and replays the render entry to
released count 1, with cursor 1 and 3 total chunks remaining. -/
theorem c2_seek_backward (t : Timeline) (target : Nat)
    (hb : ∀ i < t.entries.length, (t.entries.getD i default).stream.buffered = true)
    (hct : t.cursor ≤ t.getTotalChunks)
    (hlt : target < t.cursor) :
    SeekBackSpec t target ∧ SeekBackDemo := by
  rw [Timeline.getTotalChunks_eq] at hct
  refine ⟨?_, by decide⟩
  obtain ⟨_, hcur, hlen, hiff, hper, _⟩ :=
    Timeline.seekTo_backward_spec t target hb hct hlt
  exact ⟨hcur, hiff, hper⟩

/-- Witness for C2 at the claim's concrete scenario. -/
theorem c2_seek_backward_witness :
    ((∀ i < demoAt4.entries.length,
        (demoAt4.entries.getD i default).stream.buffered = true) ∧
      demoAt4.cursor ≤ demoAt4.getTotalChunks ∧ 1 < demoAt4.cursor) ∧
    (SeekBackSpec demoAt4 1 ∧ SeekBackDemo) :=
  ⟨⟨by decide, by decide, by decide⟩,
    c2_seek_backward demoAt4 1 (by decide) (by decide) (by decide)⟩

end RSCExplorer

namespace RSCExplorer

open Timeline SteppableStream

/-! ### Claim C3 -/

/-- Counterexample to C3 as stated: at cursor 0 (a case the claim
explicitly includes), `seekTo 0` is an early-returning no-op, so an entry
starting at offset 1 > 0 is NOT discarded — the whole state is unchanged
and both entries remain. -/
theorem c3_seek_zero_counterexample :
    twoEntriesAtZero.cursor = 0 ∧
    twoEntriesAtZero.entries.length = 2 ∧
    twoEntriesAtZero.getEntryStart 1 = 1 ∧
    twoEntriesAtZero.seekTo 0 = twoEntriesAtZero ∧
    (twoEntriesAtZero.seekTo 0).entries.length ≠ 1 := by decide

/-- What `seekTo 0` does from a positive cursor: keeps exactly the entries
starting at offset 0, resets every kept stream to zero released rows. -/
def SeekZeroSpec (t : Timeline) : Prop :=
  (t.seekTo 0).cursor = 0 ∧
  (∀ j < t.entries.length,
    (t.getEntryStart j = 0 ↔ j < (t.seekTo 0).entries.length)) ∧
  ∀ j, j < (t.seekTo 0).entries.length →
    ((t.seekTo 0).entries.getD j default).stream.releasedCount = 0 ∧
    ((t.seekTo 0).entries.getD j default).type = (t.entries.getD j default).type ∧
    ((t.seekTo 0).entries.getD j default).stream.rows
        = (t.entries.getD j default).stream.rows ∧
    ((t.seekTo 0).entries.getD j default).stream.generation
        = (t.entries.getD j default).stream.generation + 1

/-- Claim C3, amended: for every Timeline with cursor strictly greater
than 0 (not cursor = 0, where `seekTo 0` returns without mutating),
`seekTo 0` discards every entry whose starting offset is positive, keeps
exactly the entries starting at offset 0, and resets all remaining
streams to zero released rows. -/
theorem c3_seek_zero_amended (t : Timeline) (h0 : 0 < t.cursor) :
    SeekZeroSpec t := by
  have hbody : t.seekTo 0 = (replayLoop 0
      (resetState t (keepLoop t.entries 0 0)) 0).notify := by
    have h1 : t.seekTo 0 = if min 0 t.getTotalChunks = t.cursor then t else if t.cursor < min 0 t.getTotalChunks then (replayLoop (min 0 t.getTotalChunks - t.cursor) t (min 0 t.getTotalChunks)).notify else (replayLoop (min 0 t.getTotalChunks) (resetState t (keepLoop t.entries (min 0 t.getTotalChunks) 0)) (min 0 t.getTotalChunks)).notify := rfl
    rw [h1, Nat.zero_min, if_neg (by omega), if_neg (by omega)]
  have hbody2 : t.seekTo 0 = (resetState t (keepLoop t.entries 0 0)).notify := hbody
  have hK := keepLoop_le_length t.entries 0 0
  have hlen : ((resetState t (keepLoop t.entries 0 0)).notify).entries.length
      = keepLoop t.entries 0 0 := by
    show ((t.entries.take (keepLoop t.entries 0 0)).map
      (fun e => ({ e with stream := e.stream.reset } : Entry))).length
        = keepLoop t.entries 0 0
    simp
    omega
  unfold SeekZeroSpec
  rw [hbody2]
  refine ⟨rfl, ?_, ?_⟩
  · intro j hj
    have hiff := keepLoop_lt_iff t.entries 0 0 j hj
    rw [hlen, getEntryStart_eq]
    constructor
    · intro hz
      exact hiff.mpr (by omega)
    · intro hk
      have := hiff.mp hk
      omega
  · intro j hj
    have hjK : j < keepLoop t.entries 0 0 := by
      rw [hlen] at hj
      exact hj
    have hjl : j < t.entries.length := by omega
    have hgd : ((resetState t (keepLoop t.entries 0 0)).notify).entries.getD
        j default
        = { t.entries.getD j default with
            stream := (t.entries.getD j default).stream.reset } := by
      show (((t.entries.take (keepLoop t.entries 0 0)).map
        (fun e => ({ e with stream := e.stream.reset } : Entry))).getD j default) = _
      exact getD_take_map_reset t.entries _ j hjK hjl
    rw [hgd]
    exact ⟨rfl, rfl, rfl, rfl⟩

/-- Witness for the amended C3 at a concrete positive-cursor timeline. -/
theorem c3_seek_zero_amended_witness :
    0 < demoAt4.cursor ∧ SeekZeroSpec demoAt4 :=
  ⟨by decide, c3_seek_zero_amended demoAt4 (by decide)⟩

/-! ### Claim C4 -/

/-- Behaviour of `release(count)`: the released count climbs to
`min(count, rows.length)` and never decreases (a count at or below the
current released count releases nothing), exactly the newly released rows
are enqueued in buffered order, the output closes exactly once — precisely
when the released count covers all rows while `buffered` holds — and a
further release after closing is a complete no-op. -/
def ReleaseSpec (s : SteppableStream) (count : Nat) : Prop :=
  (s.release count).releasedCount
      = max s.releasedCount (min count s.rows.length) ∧
  (s.release count).rows = s.rows ∧
  (s.release count).buffered = s.buffered ∧
  (count ≤ s.releasedCount →
    (s.release count).releasedCount = s.releasedCount) ∧
  (s.release count).output = s.output ++ (s.rows.drop s.releasedCount).take
      ((s.release count).releasedCount - s.releasedCount) ∧
  ((s.release count).closed = (s.closed ||
    (decide (s.rows.length ≤ (s.release count).releasedCount) && s.buffered))) ∧
  ((s.release count).closeCount = s.closeCount +
    (if s.rows.length ≤ (s.release count).releasedCount ∧ s.buffered = true
        ∧ s.closed = false then 1 else 0)) ∧
  (s.closed = true → s.rows.length ≤ s.releasedCount → s.release count = s)

/-- Claim C4: `release(count)` advances `releasedCount` to
`min(count, rows.length)`, never decreases it, pushes each newly released
row to the output stream in buffered order, and closes the output exactly
once, precisely when `releasedCount` reaches `rows.length` while
`buffered` is true; a release after closing never closes or enqueues
again. -/
theorem c4_release_spec (s : SteppableStream) (count : Nat) :
    ReleaseSpec s count := by
  refine ⟨release_releasedCount s count, release_rows s count,
    release_buffered s count, ?_, ?_, release_closed s count,
    release_closeCount s count, release_after_close s count⟩
  · intro hle
    rw [release_releasedCount]
    omega
  · rw [release_output, release_releasedCount]
    have h : max s.releasedCount (min count s.rows.length) - s.releasedCount
        = min count s.rows.length - s.releasedCount := by omega
    rw [h]

/-- Witness for C4 on a stream already released to completion and closed. -/
theorem c4_release_spec_witness :
    (renderStream3.release 3).closed = true ∧
    (renderStream3.release 3).rows.length ≤ (renderStream3.release 3).releasedCount ∧
    ReleaseSpec (renderStream3.release 3) 5 :=
  ⟨by decide, by decide, c4_release_spec (renderStream3.release 3) 5⟩

/-! ### Claim C5 -/

/-- Counterexample to C5 as stated: a timeline with one fully buffered
zero-row entry is already at `cursor = totalChunks = 0`, so "stepping from
0 to totalChunks" performs no steps — and the zero-row entry's stream is
never closed, contradicting "every entry's stream being closed (including
entries whose streams have zero rows)". -/
theorem c5_full_run_counterexample :
    emptyStreamTimeline.cursor = 0 ∧
    emptyStreamTimeline.getTotalChunks = 0 ∧
    (Timeline.stepForward^[emptyStreamTimeline.getTotalChunks]
        emptyStreamTimeline).cursor = emptyStreamTimeline.getTotalChunks ∧
    (Timeline.stepForward^[emptyStreamTimeline.getTotalChunks]
        emptyStreamTimeline).entries.length = 1 ∧
    ((Timeline.stepForward^[emptyStreamTimeline.getTotalChunks]
        emptyStreamTimeline).entries.getD 0 default).stream.buffered = true ∧
    ((Timeline.stepForward^[emptyStreamTimeline.getTotalChunks]
        emptyStreamTimeline).entries.getD 0 default).stream.closed = false := by
  decide

/-- The amended full-run property: after `totalChunks` forward steps from
cursor 0, every entry is fully released, and every entry with at least one
row has its stream closed. -/
def RunToEndSpec (t : Timeline) : Prop :=
  (Timeline.stepForward^[t.getTotalChunks] t).cursor = t.getTotalChunks ∧
  (Timeline.stepForward^[t.getTotalChunks] t).entries.length
      = t.entries.length ∧
  ∀ i, i < (Timeline.stepForward^[t.getTotalChunks] t).entries.length →
    ((Timeline.stepForward^[t.getTotalChunks] t).entries.getD
        i default).stream.releasedCount
      = ((Timeline.stepForward^[t.getTotalChunks] t).entries.getD
          i default).stream.rows.length ∧
    (0 < ((Timeline.stepForward^[t.getTotalChunks] t).entries.getD
        i default).stream.rows.length →
      ((Timeline.stepForward^[t.getTotalChunks] t).entries.getD
          i default).stream.closed = true)

/-- Claim C5, amended: for a Timeline at cursor 0 whose entries' streams
are all fully buffered and fresh, stepping forward `totalChunks` times
releases every entry's stream in full and closes every stream with a
non-zero row count — but a zero-row entry's stream is never released into
and stays unclosed. -/
theorem c5_full_run_amended (t : Timeline) (h0 : t.cursor = 0)
    (hf : ∀ i < t.entries.length,
      Timeline.freshFor (t.entries.getD i default).stream) :
    RunToEndSpec t := by
  have hconf : conforms t := by
    constructor
    · rw [h0]
      exact Nat.zero_le _
    · intro i hi
      exact streamConforms_fresh _ (hf i hi) t.cursor _ (by omega)
  obtain ⟨r1, r2, r3⟩ := run_to_end t hconf h0
  unfold RunToEndSpec
  rw [Timeline.getTotalChunks_eq]
  exact ⟨r1, r2, r3⟩

/-- Witness for the amended C5 at the two-entry demo timeline. -/
theorem c5_full_run_amended_witness :
    (demoTimeline.cursor = 0 ∧
      (∀ i < demoTimeline.entries.length,
        Timeline.freshFor (demoTimeline.entries.getD i default).stream)) ∧
    RunToEndSpec demoTimeline :=
  ⟨⟨by decide, by decide⟩, c5_full_run_amended demoTimeline (by decide) (by decide)⟩

end RSCExplorer

namespace RSCExplorer

open Timeline SteppableStream

/-! ### Claim C6 -/

/-- Counterexample to C6 as stated: the input `"a\n \nb\n"` ends in a
newline and its newline-separated records are `["a", " ", "b"]`, but the
blank record `" "` is dropped by the `line.trim()` check, so the buffered
rows are `["a", "b"]`, not the records. -/
theorem c6_buffer_records_counterexample :
    (SteppableStream.new.buffer
        { chunks := [['a', '\n', ' ', '\n', 'b', '\n']], error := none }).1.rows
      = [['a'], ['b']] ∧
    (splitNL ['a', '\n', ' ', '\n', 'b', '\n']).dropLast
      = [['a'], [' '], ['b']] ∧
    ([['a'], ['b']] : List Row) ≠ [['a'], [' '], ['b']] := by decide

/-- Claim C6, amended: for every inbound chunk sequence (not necessarily
row-aligned), `buffer` splits the concatenated content on the newline
delimiter — handling newlines that fall across chunk boundaries — appends
each completed record whose content is not pure whitespace, and flushes a
trailing partial record exactly when it is non-blank; hence the buffered
rows are exactly the non-blank newline-separated records of the input, in
order. -/
theorem c6_buffer_splits_rows (s : SteppableStream) (chunks : List (List Char)) :
    (s.buffer { chunks := chunks, error := none }).1.rows
      = s.rows ++ (splitNL chunks.flatten).filter (fun l => !(isBlank l)) ∧
    (s.buffer { chunks := chunks, error := none }).1.buffered = true ∧
    (s.buffer { chunks := chunks, error := none }).2 = none := by
  rw [buffer_ok]
  exact ⟨rfl, rfl, rfl⟩

/-! ### Claim C7 -/

/-- Claim C7: when the inbound stream errors partway, buffering still
terminates with `buffered = true`, every row completed before the error is
retained (the run differs from an error-free run only by the final flush
of the pending tail), and the error is surfaced as the rejection of the
buffer operation rather than swallowed; the stream's release state is
untouched. -/
theorem c7_buffer_error_surfaced (s : SteppableStream)
    (chunks : List (List Char)) (e : List Char) :
    (s.buffer { chunks := chunks, error := some e }).1.buffered = true ∧
    (s.buffer { chunks := chunks, error := some e }).2 = some e ∧
    (s.buffer { chunks := chunks, error := some e }).1.rows
      = s.rows ++ (splitNL chunks.flatten).dropLast.filter (fun l => !(isBlank l)) ∧
    (s.buffer { chunks := chunks, error := none }).1.rows
      = (s.buffer { chunks := chunks, error := some e }).1.rows
          ++ (if !(isBlank ((splitNL chunks.flatten).getLastD []))
              then [(splitNL chunks.flatten).getLastD []] else []) ∧
    (s.buffer { chunks := chunks, error := some e }).1.releasedCount
      = s.releasedCount ∧
    (s.buffer { chunks := chunks, error := some e }).1.closed = s.closed := by
  rw [buffer_error, buffer_ok]
  refine ⟨rfl, rfl, rfl, ?_, rfl, rfl⟩
  show s.rows ++ (splitNL chunks.flatten).filter (fun l => !(isBlank l))
      = (s.rows ++ (splitNL chunks.flatten).dropLast.filter (fun l => !(isBlank l)))
        ++ (if !(isBlank ((splitNL chunks.flatten).getLastD []))
            then [(splitNL chunks.flatten).getLastD []] else [])
  have hsplit : (splitNL chunks.flatten).dropLast
      ++ [(splitNL chunks.flatten).getLastD []] = splitNL chunks.flatten :=
    dropLast_append_getLastD _ [] (splitNL_ne_nil chunks.flatten)
  cases hb : isBlank ((splitNL chunks.flatten).getLastD []) with
  | false =>
    have hfilter : (splitNL chunks.flatten).filter (fun l => !(isBlank l))
        = (splitNL chunks.flatten).dropLast.filter (fun l => !(isBlank l))
          ++ [(splitNL chunks.flatten).getLastD []] := by
      conv_lhs => rw [← hsplit]
      rw [List.filter_append]
      simp only [List.getLastD_eq_getLast?] at hb ⊢
      simp [hb]
    rw [hfilter, ← List.append_assoc]
    rfl
  | true =>
    have hfilter : (splitNL chunks.flatten).filter (fun l => !(isBlank l))
        = (splitNL chunks.flatten).dropLast.filter (fun l => !(isBlank l)) := by
      conv_lhs => rw [← hsplit]
      rw [List.filter_append]
      simp only [List.getLastD_eq_getLast?] at hb ⊢
      simp [hb]
    rw [hfilter]
    simp

/-! ### Claim C8 -/

/-- Deletability: `canDeleteEntry i` is false exactly when the entry's
start offset is below the cursor; `deleteEntry` on an ineligible entry
returns false and changes nothing, and on an eligible entry removes
exactly that entry, notifies, and returns true. -/
def DeleteSpec (t : Timeline) (i : Nat) : Prop :=
  (t.canDeleteEntry i = false ↔ t.getEntryStart i < t.cursor) ∧
  (t.canDeleteEntry i = true ↔ t.cursor ≤ t.getEntryStart i) ∧
  (t.canDeleteEntry i = false → t.deleteEntry i = (t, false)) ∧
  (t.canDeleteEntry i = true →
    (t.deleteEntry i).2 = true ∧
    (t.deleteEntry i).1 = ({ t with
      entries := t.entries.take i ++ t.entries.drop (i + 1),
      snapshot := none, notifyCount := t.notifyCount + 1 } : Timeline))

/-- Claim C8: for every valid entry index, `canDeleteEntry` is false iff
the entry's starting global offset is strictly below the cursor;
`deleteEntry` on an ineligible entry returns false leaving the state
unchanged, and on an eligible entry removes exactly that entry and
returns true. -/
theorem c8_delete_entry_spec (t : Timeline) (i : Nat)
    (hi : i < t.entries.length) : DeleteSpec t i := by
  have hcde : t.canDeleteEntry i = decide (t.cursor ≤ t.getEntryStart i) := by
    rw [canDeleteEntry, if_pos hi]
  refine ⟨?_, ?_, ?_, ?_⟩
  · rw [hcde]
    simp [Nat.not_le]
  · rw [hcde]
    simp
  · intro hf
    rw [deleteEntry, if_neg (by simp [hf])]
  · intro ht
    rw [deleteEntry, if_pos ht]
    exact ⟨rfl, rfl⟩

/-- Witness for C8 at a deletable action entry. -/
theorem c8_delete_entry_spec_witness :
    1 < demoAt1.entries.length ∧ DeleteSpec demoAt1 1 :=
  ⟨by decide, c8_delete_entry_spec demoAt1 1 (by decide)⟩

/-! ### Claim C9 -/

/-- Snapshot caching: reading twice without a mutation returns the very
same cached snapshot (same identity) and leaves the state alone; a read
against an empty cache recomputes the snapshot from the current entries,
cursor and totals; and every mutating operation, through `notify`,
empties the cache. -/
def SnapshotSpec (t : Timeline) (s : SteppableStream) (name : String)
    (args : List String) (i tgt : Nat) : Prop :=
  ((t.getSnapshot.2).getSnapshot = (t.getSnapshot.1, t.getSnapshot.2)) ∧
  (t.snapshot = none →
    (t.getSnapshot.1.entries = t.entries ∧
     t.getSnapshot.1.cursor = t.cursor ∧
     t.getSnapshot.1.totalChunks = t.getTotalChunks ∧
     t.getSnapshot.1.isAtStart = (t.cursor == 0) ∧
     t.getSnapshot.1.isAtEnd = decide (t.getTotalChunks ≤ t.cursor))) ∧
  (t.notify.snapshot = none) ∧
  ((t.setRender s).snapshot = none) ∧
  ((t.addAction name args s).snapshot = none) ∧
  (t.clear.snapshot = none) ∧
  (t.canDeleteEntry i = true → (t.deleteEntry i).1.snapshot = none) ∧
  (t.cursor < t.getTotalChunks → t.stepForward.snapshot = none) ∧
  (0 < t.cursor → t.stepBackward.snapshot = none) ∧
  (min tgt t.getTotalChunks ≠ t.cursor → (t.seekTo tgt).snapshot = none) ∧
  ((t.getPosition t.cursor).isSome → t.skipToEntryEnd.snapshot = none)

/-- Claim C9: `getSnapshot` twice with no intervening mutation returns the
identical cached snapshot object and every mutating operation (which calls
`notify`) invalidates the cache, so the next `getSnapshot` recomputes a
snapshot reflecting the new entries, cursor, totalChunks, isAtStart and
isAtEnd. -/
theorem c9_snapshot_cache (t : Timeline) (s : SteppableStream) (name : String)
    (args : List String) (i tgt : Nat) : SnapshotSpec t s name args i tgt := by
  refine ⟨getSnapshot_twice t, getSnapshot_of_none t, rfl, rfl, rfl, rfl,
    ?_, ?_, stepBackward_snapshot_of_pos t, ?_, skipToEntryEnd_snapshot t⟩
  · intro hcd
    rw [deleteEntry, if_pos hcd]
    rfl
  · intro hlt
    rw [Timeline.getTotalChunks_eq] at hlt
    exact stepForward_snapshot_of_lt t hlt
  · intro hne
    rw [Timeline.getTotalChunks_eq] at hne
    exact seekTo_snapshot_of_ne t tgt hne

/-- Witness for C9 at a concrete timeline where all the guarded cases are
live (deletable entry, room to step forward and backward, cursor inside an
entry). -/
theorem c9_snapshot_cache_witness :
    SnapshotSpec demoAt1 (mkStream ['q', '\n']) "n" [] 1 3 :=
  c9_snapshot_cache demoAt1 (mkStream ['q', '\n']) "n" [] 1 3

/-! ### Claim C10 -/

/-- Claim C10 (implicit): `clear()` replaces the entry list with the empty
list, resets the cursor to 0, and notifies observers exactly once — and
does nothing else: it never calls `reset()` on, or otherwise touches, the
streams of the entries it drops (in this embedding, the resulting state is
fully determined by the record equality below, which alters only the
entries, the cursor and the notification bookkeeping). -/
theorem c10_clear_spec (t : Timeline) :
    t.clear = ({ t with entries := [], cursor := 0, snapshot := none, notifyCount := t.notifyCount + 1 } : Timeline) := rfl

end RSCExplorer
